import Mathlib

/-!
Verification model of the json-schema-env-config library.

The library walks a JSON Schema, derives environment-variable names for the
configuration property paths it finds, parses the variables' string values
according to the schema types, and assembles a configuration object
(src/walking.ts, src/naming.ts, src/parsing.ts, src/discovery.ts,
src/environment.ts, src/override.ts).

The embedding below is a shallow one:

* JavaScript values that the library manipulates become the inductive type
  JSONValue (numbers are modelled as rationals, the idealisation of the
  IEEE doubles the source works with).
* JSON schemas become the mutual inductive Schema; a boolean appearing where
  a schema object is expected is the constructor Schema.boolSchema, mirroring
  the typeof checks in the source.
* External collaborators (the lodash snakeCase word splitter, the JavaScript
  RegExp engine used by discoverPatternProperties, and the filesystem read
  used for FILE-suffixed variables) are modelled as an oracle record ExtEnv;
  every theorem quantifies over the oracle, and concrete witnesses supply
  small executable instances.
* Recursive procedures are written with an explicit fuel argument so that
  every definition is a structurally recursive, executable function; fuel
  zero is the distinguished error LoadErr.fuel, which a sufficiently large
  fuel never reaches.
* The mutable state of loadFromEnv (the config object under construction and
  the envVarNames map of consumed variable names) is passed explicitly as
  LState; the model additionally records an event trace (the set / conflict
  events) that the theorems about variable consumption quantify over.
-/

/-- A JSON value, as produced by JSON.parse and stored in config objects.
Objects keep their members as an ordered association list, matching
JavaScript property insertion order. -/
inductive JSONValue where
  | null : JSONValue
  | bool (b : Bool) : JSONValue
  | num (q : ℚ) : JSONValue
  | str (s : String) : JSONValue
  | arr (elems : List JSONValue) : JSONValue
  | obj (members : List (String × JSONValue)) : JSONValue
deriving Repr

/-- The value of a schema's type keyword: a single type name or an ordered
list of type names (src/common.ts JSONSchema, src/parsing.ts Array.isArray
check on schema.type). -/
inductive TypeVal where
  | single (t : String)
  | multiple (ts : List String)
deriving DecidableEq, Repr

mutual
/-- A JSON schema node: either a bare boolean (unsupported wherever a schema
object is required) or an object whose interpreted keywords are the fields of
SchemaCore.  Keywords the library ignores are not modelled. -/
inductive Schema where
  | boolSchema (b : Bool)
  | objSchema (core : SchemaCore)
/-- The interpreted keywords of a schema object.  Every field is an Option:
none models the keyword being absent (undefined in JavaScript). -/
inductive SchemaCore where
  | mk (type : Option TypeVal)
       (properties : Option (List (String × Schema)))
       (patternProperties : Option (List (String × Schema)))
       (additionalProperties : Option Schema)
       (items : Option ItemsVal)
       (additionalItems : Option Schema)
       (anyOf : Option (List Schema))
       (oneOf : Option (List Schema))
       (allOf : Option (List Schema))
/-- The items keyword: a single schema or an ordered list of schemas. -/
inductive ItemsVal where
  | one (s : Schema)
  | many (ss : List Schema)
end

/-- The schema's type keyword (undefined on a boolean schema). -/
def Schema.typeOf : Schema → Option TypeVal
  | .boolSchema _ => none
  | .objSchema (.mk t _ _ _ _ _ _ _ _) => t

/-- The schema's properties keyword. -/
def Schema.propertiesOf : Schema → Option (List (String × Schema))
  | .boolSchema _ => none
  | .objSchema (.mk _ p _ _ _ _ _ _ _) => p

/-- The schema's patternProperties keyword. -/
def Schema.patternPropertiesOf : Schema → Option (List (String × Schema))
  | .boolSchema _ => none
  | .objSchema (.mk _ _ pp _ _ _ _ _ _) => pp

/-- The schema's additionalProperties keyword. -/
def Schema.additionalPropertiesOf : Schema → Option Schema
  | .boolSchema _ => none
  | .objSchema (.mk _ _ _ ap _ _ _ _ _) => ap

/-- The schema's items keyword. -/
def Schema.itemsOf : Schema → Option ItemsVal
  | .boolSchema _ => none
  | .objSchema (.mk _ _ _ _ it _ _ _ _) => it

/-- The schema's additionalItems keyword. -/
def Schema.additionalItemsOf : Schema → Option Schema
  | .boolSchema _ => none
  | .objSchema (.mk _ _ _ _ _ ai _ _ _) => ai

/-- The schema's anyOf keyword. -/
def Schema.anyOfOf : Schema → Option (List Schema)
  | .boolSchema _ => none
  | .objSchema (.mk _ _ _ _ _ _ ao _ _) => ao

/-- The schema's oneOf keyword. -/
def Schema.oneOfOf : Schema → Option (List Schema)
  | .boolSchema _ => none
  | .objSchema (.mk _ _ _ _ _ _ _ oo _) => oo

/-- The schema's allOf keyword. -/
def Schema.allOfOf : Schema → Option (List Schema)
  | .boolSchema _ => none
  | .objSchema (.mk _ _ _ _ _ _ _ _ al) => al

/-- The object spread used by parseEnvVarValue for a type list:
the same schema with the type keyword replaced by a single type
(src/parsing.ts, the recursive call with spread schema and type propType). -/
def Schema.setType : Schema → TypeVal → Schema
  | .objSchema (.mk _ p pp ap it ai ao oo al), t =>
      .objSchema (.mk (some t) p pp ap it ai ao oo al)
  | .boolSchema _, t =>
      .objSchema (.mk (some t) none none none none none none none none)

/-- A convenience constructor for a schema with only a type keyword. -/
def typedSchema (t : String) : Schema :=
  .objSchema (.mk (some (.single t)) none none none none none none none none)

/-- The case option of EnvVarNamingOptions (src/common.ts): snake_case or
SCREAMING_SNAKE_CASE. -/
inductive CaseKind where
  | snake
  | screamingSnake
deriving DecidableEq, Repr

/-- EnvVarNamingOptions from src/common.ts.  The source field named after the
leading string option is called optPre here; caseKind models the case field.
Option models an undefined field; some of the empty string is the (falsy)
empty string. -/
structure EnvVarNamingOptions where
  caseKind : Option CaseKind
  propertySeparator : Option String
  optPre : Option String
deriving DecidableEq, Repr

/-- DEFAULT_OPTIONS from src/common.ts. -/
def DEFAULT_OPTIONS : EnvVarNamingOptions :=
  { caseKind := some .snake, propertySeparator := some "__", optPre := none }

/-- A configuration property path item (src/walking.ts
ConfigPropertyPathItem): the raw segment text, the named flag, and the meta
flag (absent in the source object literal is modelled as false, which is
equivalent for the deep-equality tests the source performs on path items). -/
structure PathItem where
  value : String
  named : Bool
  meta : Bool := false
deriving DecidableEq, Repr

/-- ConfigPropertyPath from src/walking.ts. -/
abbrev ConfigPropertyPath := List PathItem

/-- META_PATH_ITEM_EVERY from src/walking.ts. -/
def META_PATH_ITEM_EVERY : PathItem := { value := "every", named := true, meta := true }

/-- META_PATH_ITEM_EACH from src/walking.ts. -/
def META_PATH_ITEM_EACH : PathItem := { value := "each", named := true, meta := true }

/-- The external collaborators of the core, passed as oracles:
snake is lodash's snakeCase, rmatch is the JavaScript regular expression
test (first argument the regex source string built by the library, second
the candidate string), and fsRead is the UTF-8 file read used by the
FILE-suffixed variables (none models any read failure). -/
structure ExtEnv where
  snake : String → String
  rmatch : String → String → Bool
  fsRead : String → Option String

/-- The environment variable map: an ordered association list of names to
values, matching Object.keys iteration order on a NodeJS.ProcessEnv. -/
abbrev Env := List (String × String)

/-- Environment lookup (env[name] in the source). -/
def envGet (env : Env) (name : String) : Option String :=
  (env.find? fun kv => kv.fst == name).map (·.snd)

/-- ASCII uppercasing, the effect of toUpperCase on the ASCII identifiers
the name codec produces. -/
def asciiToUpper (s : String) : String :=
  String.mk (s.data.map fun c =>
    if 'a' ≤ c ∧ c ≤ 'z' then Char.ofNat (c.toNat - 32) else c)

/-- transformPropertyName from src/naming.ts: snakeCase for the snake_case
option, otherwise snakeCase followed by toUpperCase. -/
def transformPropertyName (ext : ExtEnv) (name : String)
    (options : EnvVarNamingOptions) : String :=
  if options.caseKind = some .snake then ext.snake name
  else asciiToUpper (ext.snake name)

/-- The separator actually used by Array.prototype.join in getEnvVarName: the
configured separator, or the comma that join substitutes for an undefined
separator.  After option initialisation the separator is always set. -/
def joinSeparator (options : EnvVarNamingOptions) : String :=
  options.propertySeparator.getD ","

/-- Joins non-empty string lists with a separator, as Array.prototype.join. -/
def joinWith (sep : String) : List String → String
  | [] => ""
  | [s] => s
  | s :: rest => s ++ sep ++ joinWith sep rest

/-- getEnvVarName from src/naming.ts: transformed names for named items,
literal values otherwise, joined by the separator, with the optional leading
string (and one more separator) prepended when it is truthy. -/
def getEnvVarName (ext : ExtEnv) (path : ConfigPropertyPath)
    (options : EnvVarNamingOptions) : String :=
  let name := joinWith (joinSeparator options)
    (path.map fun it =>
      if it.named then transformPropertyName ext it.value options else it.value)
  match options.optPre with
  | some p => if p = "" then name else p ++ joinSeparator options ++ name
  | none => name

/-- initialiseOptions from src/common.ts: copy the record, then fill a falsy
case with snake_case and a falsy separator with a double underscore. -/
def initialiseOptions (options : EnvVarNamingOptions) : EnvVarNamingOptions :=
  let c := if options.caseKind = none then some CaseKind.snake else options.caseKind
  let s := if options.propertySeparator = none ∨ options.propertySeparator = some ""
           then some "__" else options.propertySeparator
  { caseKind := c, propertySeparator := s, optPre := options.optPre }

/-- The option initialisation at the top of loadFromEnv (src/environment.ts):
a falsy case becomes SCREAMING_SNAKE_CASE and a falsy separator a single
underscore, assigned into the caller's options object.  The first component
is the caller's object after the call (the same, mutated, object the loader
then uses: both components are equal). -/
def loadFromEnvInitOptions (options : EnvVarNamingOptions) :
    EnvVarNamingOptions × EnvVarNamingOptions :=
  let c := if options.caseKind = none then some CaseKind.screamingSnake
           else options.caseKind
  let s := if options.propertySeparator = none ∨ options.propertySeparator = some ""
           then some "_" else options.propertySeparator
  let o := { caseKind := c, propertySeparator := s, optPre := options.optPre }
  (o, o)

/-- The option initialisation at the top of overrideArrayValues
(src/override.ts): the local parameter is rebound to initialiseOptions'
copy, so the caller's object (the first component) is returned unchanged. -/
def overrideArrayValuesInitOptions (options : EnvVarNamingOptions) :
    EnvVarNamingOptions × EnvVarNamingOptions :=
  (options, initialiseOptions options)

/-- JSON whitespace, the four characters JSON.parse skips around tokens. -/
def isJsonWs (c : Char) : Bool :=
  c = ' ' || c = '\t' || c = '\n' || c = '\r'

/-- Skips leading JSON whitespace. -/
def skipWs (cs : List Char) : List Char :=
  cs.dropWhile isJsonWs

/-- The opening curly brace character. -/
def curlyOpen : Char := Char.ofNat 123

/-- The closing curly brace character. -/
def curlyClose : Char := Char.ofNat 125

/-- Hexadecimal digit test for JSON unicode escapes. -/
def isHexDigit (c : Char) : Bool :=
  c.isDigit || ('a' ≤ c && c ≤ 'f') || ('A' ≤ c && c ≤ 'F')

/-- Value of a hexadecimal digit. -/
def hexVal (c : Char) : Nat :=
  if c.isDigit then c.toNat - 48
  else if 'a' ≤ c && c ≤ 'f' then c.toNat - 87
  else c.toNat - 55

/-- Scans a JSON string body (after the opening quote) up to the closing
quote, decoding escapes.  A unicode escape becomes the character of its code
point (an invalid code point collapses to the null character, an
idealisation of lone surrogates that no claim depends on). -/
def scanStrF : Nat → List Char → Option (List Char × List Char)
  | 0, _ => none
  | _ + 1, [] => none
  | f + 1, c :: r =>
    if c = '"' then some ([], r)
    else if c = '\\' then
      match r with
      | [] => none
      | e :: r2 =>
        let dec : Option (Char × List Char) :=
          if e = '"' then some ('"', r2)
          else if e = '\\' then some ('\\', r2)
          else if e = '/' then some ('/', r2)
          else if e = 'b' then some ('\x08', r2)
          else if e = 'f' then some ('\x0c', r2)
          else if e = 'n' then some ('\n', r2)
          else if e = 'r' then some ('\r', r2)
          else if e = 't' then some ('\t', r2)
          else if e = 'u' then
            match r2 with
            | h1 :: h2 :: h3 :: h4 :: r3 =>
              if isHexDigit h1 && isHexDigit h2 && isHexDigit h3 && isHexDigit h4
              then some (Char.ofNat
                (((hexVal h1 * 16 + hexVal h2) * 16 + hexVal h3) * 16 + hexVal h4), r3)
              else none
            | _ => none
          else none
        match dec with
        | none => none
        | some (ch, rest) =>
          match scanStrF f rest with
          | none => none
          | some (s, rr) => some (ch :: s, rr)
    else if c.toNat < 32 then none
    else
      match scanStrF f r with
      | none => none
      | some (s, rr) => some (c :: s, rr)

/-- Numeric value of a list of decimal digit characters. -/
def digitsVal (ds : List Char) : Nat :=
  ds.foldl (fun a c => a * 10 + (c.toNat - 48)) 0

/-- Scans the integer part of a JSON number: a single zero, or a nonzero
digit followed by any digits. -/
def scanIntPart : List Char → Option (List Char × List Char)
  | [] => none
  | c :: r =>
    if c = '0' then some (['0'], r)
    else if c.isDigit then
      some (c :: r.takeWhile Char.isDigit, r.dropWhile Char.isDigit)
    else none

/-- Scans the optional fraction part of a JSON number; returns the fraction
digits (empty when there is no fraction part). -/
def scanFracPart : List Char → Option (List Char × List Char)
  | '.' :: r =>
    let ds := r.takeWhile Char.isDigit
    if ds = [] then none else some (ds, r.dropWhile Char.isDigit)
  | cs => some ([], cs)

/-- Scans the optional exponent part of a JSON number; returns the exponent
sign (true for negative) and digits when an exponent is present. -/
def scanExpPart : List Char → Option (Option (Bool × List Char) × List Char)
  | c :: r =>
    if c = 'e' ∨ c = 'E' then
      match r with
      | '+' :: r2 =>
        let ds := r2.takeWhile Char.isDigit
        if ds = [] then none
        else some (some (false, ds), r2.dropWhile Char.isDigit)
      | '-' :: r2 =>
        let ds := r2.takeWhile Char.isDigit
        if ds = [] then none
        else some (some (true, ds), r2.dropWhile Char.isDigit)
      | r2 =>
        let ds := r2.takeWhile Char.isDigit
        if ds = [] then none
        else some (some (false, ds), r2.dropWhile Char.isDigit)
    else some (none, c :: r)
  | [] => some (none, [])

/-- The exponent value of a scanned exponent part. -/
def expValOf : Option (Bool × List Char) → ℤ
  | none => 0
  | some (en, ds) => if en then -(digitsVal ds : ℤ) else (digitsVal ds : ℤ)

/-- The exact rational value of a decimal literal with the given sign,
integer-part digits, fraction digits and exponent: the integer
sign * (ip.fds) * 10 ^ e, built as one normalised fraction. -/
def ratOfParts (neg : Bool) (ip fds : List Char) (e : ℤ) : ℚ :=
  let baseNum : ℤ := (digitsVal ip * 10 ^ fds.length + digitsVal fds : ℕ)
  let signed : ℤ := if neg then -baseNum else baseNum
  if 0 ≤ e then mkRat (signed * 10 ^ e.toNat) (10 ^ fds.length)
  else mkRat signed (10 ^ fds.length * 10 ^ (-e).toNat)

/-- The rational value of a JSON number from its scanned pieces. -/
def numValueOf (neg : Bool) (ip fds : List Char) (eo : Option (Bool × List Char)) : ℚ :=
  ratOfParts neg ip fds (expValOf eo)

/-- Scans the digits of a JSON number after the optional minus sign:
integer part, optional fraction part, optional exponent part. -/
def scanNumAfterSign (neg : Bool) (cs1 : List Char) : Option (ℚ × List Char) :=
  match scanIntPart cs1 with
  | none => none
  | some (ip, cs2) =>
    match scanFracPart cs2 with
    | none => none
    | some (fds, cs3) =>
      match scanExpPart cs3 with
      | none => none
      | some (eo, rest) => some (numValueOf neg ip fds eo, rest)

/-- Scans a JSON number token at the head of the input, returning its
rational value and the unconsumed remainder. -/
def scanNumber : List Char → Option (ℚ × List Char)
  | '-' :: r => scanNumAfterSign true r
  | cs => scanNumAfterSign false cs

/-- The work items of the JSON value parser: a value, the remaining elements
of an array, or the remaining members of an object. -/
inductive JTask where
  | value (cs : List Char)
  | arrElems (cs : List Char) (acc : List JSONValue)
  | objMembers (cs : List Char) (acc : List (String × JSONValue))

/-- Looks up a key in an ordered association list (property read). -/
def objGet (kvs : List (String × JSONValue)) (k : String) : Option JSONValue :=
  (kvs.find? fun kv => kv.fst == k).map (·.snd)

/-- JavaScript property assignment on an ordered association list: an
existing key keeps its position and gets the new value, a new key is
appended. -/
def objSet (kvs : List (String × JSONValue)) (k : String) (v : JSONValue) :
    List (String × JSONValue) :=
  match kvs with
  | [] => [(k, v)]
  | (k', v') :: rest =>
    if k' = k then (k', v) :: rest else (k', v') :: objSet rest k v

/-- The recursive JSON value parser (the model of JSON.parse's grammar),
written against an explicit fuel so that it is structurally recursive.  The
input at a value task has no leading whitespace (callers skip it). -/
def jrun : Nat → JTask → Option (JSONValue × List Char)
  | 0, _ => none
  | f + 1, .value cs =>
    match cs with
    | [] => none
    | c :: r =>
      if c = curlyOpen then jrun f (.objMembers (skipWs r) [])
      else if c = '[' then jrun f (.arrElems (skipWs r) [])
      else if c = '"' then
        match scanStrF f r with
        | none => none
        | some (s, rest) => some (.str (String.mk s), rest)
      else if c = 't' then
        if ['t', 'r', 'u', 'e'].isPrefixOf cs then some (.bool true, cs.drop 4) else none
      else if c = 'f' then
        if ['f', 'a', 'l', 's', 'e'].isPrefixOf cs then some (.bool false, cs.drop 5) else none
      else if c = 'n' then
        if ['n', 'u', 'l', 'l'].isPrefixOf cs then some (.null, cs.drop 4) else none
      else
        match scanNumber cs with
        | none => none
        | some (q, rest) => some (.num q, rest)
  | f + 1, .arrElems cs acc =>
    if acc.isEmpty ∧ cs.head? = some ']' then some (.arr [], cs.tail)
    else
      match jrun f (.value cs) with
      | none => none
      | some (v, rest) =>
        match skipWs rest with
        | ',' :: r2 => jrun f (.arrElems (skipWs r2) (acc ++ [v]))
        | ']' :: r2 => some (.arr (acc ++ [v]), r2)
        | _ => none
  | f + 1, .objMembers cs acc =>
    if acc.isEmpty ∧ cs.head? = some curlyClose then some (.obj [], cs.tail)
    else
      match cs with
      | '"' :: r =>
        match scanStrF f r with
        | none => none
        | some (key, r1) =>
          match skipWs r1 with
          | ':' :: r2 =>
            match jrun f (.value (skipWs r2)) with
            | none => none
            | some (v, rest) =>
              let acc' := objSet acc (String.mk key) v
              match skipWs rest with
              | ',' :: r3 => jrun f (.objMembers (skipWs r3) acc')
              | c4 :: r4 => if c4 = curlyClose then some (.obj acc', r4) else none
              | [] => none
          | _ => none
      | _ => none

/-- JSON.parse: parse one value surrounded by optional whitespace; anything
else (including trailing input) is a parse failure, which the source always
catches locally. -/
def jsonParse (s : String) : Option JSONValue :=
  match jrun (2 * s.data.length + 4) (.value (skipWs s.data)) with
  | some (v, rest) => if skipWs rest = [] then some v else none
  | none => none

/-- The failures a call can end with: an UnsupportedSchema error (thrown for
structurally unsupported schemas), a plain Error (thrown when recursing into
a non-object config property), or fuel exhaustion of the model (never reached
at adequate fuel). -/
inductive LoadErr where
  | unsupportedSchema (msg : String)
  | typeErr (msg : String)
  | fuel
deriving DecidableEq, Repr

/-- parseNull from src/parsing.ts: the raw value must be the literal string
null. -/
def parseNull (envVarValue : String) : Option JSONValue :=
  if envVarValue = "null" then some .null else none

/-- parseBoolean from src/parsing.ts: exactly true or false, case
sensitively. -/
def parseBoolean (value : String) : Option JSONValue :=
  if value = "true" then some (.bool true)
  else if value = "false" then some (.bool false)
  else none

/-- parseObject from src/parsing.ts: JSON.parse the raw value and require a
plain object (not an array, not null, not a scalar). -/
def parseObject (envVarValue : String) : Option JSONValue :=
  match jsonParse envVarValue with
  | some (.obj kvs) => some (.obj kvs)
  | _ => none

/-- parseNumber from src/parsing.ts: JSON.parse the raw value and require a
number (JSON cannot produce NaN, so the NaN guard never fires). -/
def parseNumber (envVarValue : String) : Option ℚ :=
  match jsonParse envVarValue with
  | some (.num q) => some q
  | _ => none

/-- parseInteger from src/parsing.ts: parseNumber, then reject a value whose
remainder modulo one is non-zero, which for the rational model is exactly a
non-integral value. -/
def parseInteger (envVarValue : String) : Option ℚ :=
  match parseNumber envVarValue with
  | none => none
  | some q => if q.den = 1 then some q else none

/-- The per-element schema selection and parse of parseCSVArray
(src/parsing.ts): for an items list, element index takes the listed schema
or falls back to additionalItems; a missing or boolean schema makes the
element unparseable; rec is parseEnvVarValue at the enclosing fuel. -/
def csvElemParse
    (rec : String → Schema → Except LoadErr (Option JSONValue))
    (itemsVal : ItemsVal) (additionalItems : Option Schema)
    (part : String) (index : Nat) : Except LoadErr (Option JSONValue) :=
  match itemsVal with
  | .many ss =>
    match (ss.get? index).orElse fun _ => additionalItems with
    | none => .ok none
    | some (.boolSchema _) => .ok none
    | some itemSchema => rec part itemSchema
  | .one (.boolSchema _) =>
    .error (.unsupportedSchema "Boolean items keyword values are not supported")
  | .one itemSchema => rec part itemSchema

/-- Folds csvElemParse over the comma-separated parts, keeping each
element's optional result (Array.prototype.map over the split). -/
def csvElemsParse
    (rec : String → Schema → Except LoadErr (Option JSONValue))
    (itemsVal : ItemsVal) (additionalItems : Option Schema) :
    List String → Nat → Except LoadErr (List (Option JSONValue))
  | [], _ => .ok []
  | part :: rest, index => do
    let v ← csvElemParse rec itemsVal additionalItems part index
    let vs ← csvElemsParse rec itemsVal additionalItems rest (index + 1)
    .ok (v :: vs)

/-- String.prototype.split on the comma character, over character lists. -/
def splitCommaChars : List Char → List (List Char)
  | [] => [[]]
  | c :: r =>
    match splitCommaChars r with
    | h :: t => if c = ',' then [] :: h :: t else (c :: h) :: t
    | [] => [[c]]

/-- String.prototype.split on a comma. -/
def jsSplitComma (s : String) : List String :=
  (splitCommaChars s.data).map String.mk

/-- allElementsDefined from src/parsing.ts, fused with the extraction of the
defined values: some values exactly when no element is undefined. -/
def allDefined {α : Type} : List (Option α) → Option (List α)
  | [] => some []
  | none :: _ => none
  | some x :: rest => (allDefined rest).map (x :: ·)

/-- parseCSVArray from src/parsing.ts, parameterised by the recursive
element parser: split the raw value on commas, parse every element against
its item schema, and succeed only when every element parsed. -/
def parseCSVArrayWith
    (rec : String → Schema → Except LoadErr (Option JSONValue))
    (envVarValue : String) (schema : Schema) :
    Except LoadErr (Option JSONValue) :=
  match schema.itemsOf with
  | none => .ok none
  | some itemsVal => do
    let vs ← csvElemsParse rec itemsVal schema.additionalItemsOf
      (jsSplitComma envVarValue) 0
    match allDefined vs with
    | none => .ok none
    | some values => .ok (some (.arr values))

/-- parseArray from src/parsing.ts, parameterised by the recursive element
parser: JSON.parse first and use the result when it is an array; any other
outcome (a JSON parse failure or a non-array JSON value) falls back to CSV
parsing. -/
def parseArrayWith
    (rec : String → Schema → Except LoadErr (Option JSONValue))
    (envVarValue : String) (schema : Schema) :
    Except LoadErr (Option JSONValue) :=
  match jsonParse envVarValue with
  | some (.arr elems) => .ok (some (.arr elems))
  | _ => parseCSVArrayWith rec envVarValue schema

/-- Tries each member of a type list in order, as parseEnvVarValue does for
an array-valued type keyword; rec is parseEnvVarValue at the next lower
fuel, applied to the schema with the type keyword overwritten. -/
def tryTypesWith (rec : String → Except LoadErr (Option JSONValue)) :
    List String → Except LoadErr (Option JSONValue)
  | [] => .ok none
  | t :: ts => do
    match ← rec t with
    | some v => .ok (some v)
    | none => tryTypesWith rec ts

/-- parseEnvVarValue from src/parsing.ts: dispatch on the schema's type
keyword.  A type list tries each member in order; a missing type yields
undefined; an unrecognised type name is an UnsupportedSchema error.  The
fuel argument only feeds the recursive calls (the type-list recursion and
the CSV element recursion); it is irrelevant on the non-recursive paths. -/
def parseEnvVarValue : Nat → String → Schema → Except LoadErr (Option JSONValue)
  | 0, _, _ => .error .fuel
  | f + 1, envVarValue, schema =>
    match schema.typeOf with
    | some (.multiple ts) =>
      tryTypesWith
        (fun t => parseEnvVarValue f envVarValue (schema.setType (.single t))) ts
    | none => .ok none
    | some (.single t) =>
      if t = "null" then .ok (parseNull envVarValue)
      else if t = "boolean" then .ok (parseBoolean envVarValue)
      else if t = "object" then .ok (parseObject envVarValue)
      else if t = "array" then
        parseArrayWith (fun v s => parseEnvVarValue f v s) envVarValue schema
      else if t = "integer" then .ok ((parseInteger envVarValue).map .num)
      else if t = "number" then .ok ((parseNumber envVarValue).map .num)
      else if t = "string" then .ok (some (.str envVarValue))
      else .error (.unsupportedSchema ("Cannot handle JSON schema type " ++ t))

/-- parseCSVArray at a given element-parsing fuel. -/
def parseCSVArray (f : Nat) (envVarValue : String) (schema : Schema) :
    Except LoadErr (Option JSONValue) :=
  parseCSVArrayWith (fun v s => parseEnvVarValue f v s) envVarValue schema

/-- parseArray at a given element-parsing fuel. -/
def parseArray (f : Nat) (envVarValue : String) (schema : Schema) :
    Except LoadErr (Option JSONValue) :=
  parseArrayWith (fun v s => parseEnvVarValue f v s) envVarValue schema

/-- The visitor calls walkConfigProperties makes, as a trace: a visitSchema
call, a visitPatternProperty call, or a visitAdditionalProperties call. -/
inductive WEvent where
  | vs (schema : Schema) (path : ConfigPropertyPath)
  | vp (pattern : String) (schema : Schema) (path : ConfigPropertyPath)
  | va (schema : Schema) (path : ConfigPropertyPath)

/-- Walks the elements of an in-place applicator keyword, concatenating
the element traces; a boolean element is an UnsupportedSchema error
(src/walking.ts, the loop over IN_PLACE_APPLICATOR_KEYWORDS). -/
def walkApplicatorList
    (rec : Schema → ConfigPropertyPath → Except LoadErr (List WEvent))
    (keyword : String) :
    List Schema → ConfigPropertyPath → Except LoadErr (List WEvent)
  | [], _ => .ok []
  | .boolSchema _ :: _, _ =>
    .error (.unsupportedSchema
      ("Boolean " ++ keyword ++ " keyword element values are not supported"))
  | s :: rest, path => do
    let evs ← rec s path
    let evs' ← walkApplicatorList rec keyword rest path
    .ok (evs ++ evs')

/-- Walks the declared properties in declaration order, extending the path
with a named item; a boolean property schema is an UnsupportedSchema error
(src/walking.ts, the loop over schema.properties). -/
def walkPropsList
    (rec : Schema → ConfigPropertyPath → Except LoadErr (List WEvent)) :
    List (String × Schema) → ConfigPropertyPath → Except LoadErr (List WEvent)
  | [], _ => .ok []
  | (_, .boolSchema _) :: _, _ =>
    .error (.unsupportedSchema
      "Boolean properties keyword object properties are not supported")
  | (name, s) :: rest, path => do
    let evs ← rec s (path ++ [{ value := name, named := true }])
    let evs' ← walkPropsList rec rest path
    .ok (evs ++ evs')

/-- Emits the visitPatternProperty events in declaration order; a boolean
pattern schema is an UnsupportedSchema error (src/walking.ts, the loop over
schema.patternProperties). -/
def patternEventsList :
    List (String × Schema) → ConfigPropertyPath → Except LoadErr (List WEvent)
  | [], _ => .ok []
  | (_, .boolSchema _) :: _, _ =>
    .error (.unsupportedSchema
      "Boolean patternProperties keyword object properties are not supported")
  | (pattern, s) :: rest, path => do
    let evs' ← patternEventsList rest path
    .ok (WEvent.vp pattern s path :: evs')

/-- The visitAdditionalProperties event: emitted when additionalProperties
is present and neither true nor false (src/walking.ts). -/
def additionalEvent (schema : Schema) (path : ConfigPropertyPath) : List WEvent :=
  match schema.additionalPropertiesOf with
  | some (.boolSchema _) => []
  | some s => [WEvent.va s path]
  | none => []

/-- walkConfigProperties from src/walking.ts as a trace semantics: the first
applicator keyword present (anyOf, then oneOf, then allOf) short-circuits
the node, walking each element against the same path; otherwise the node's
visitSchema event is followed by the recursive property walks, the pattern
property events and the additional-properties event. -/
def walkTrace : Nat → Schema → ConfigPropertyPath → Except LoadErr (List WEvent)
  | 0, _, _ => .error .fuel
  | f + 1, schema, path =>
    match schema.anyOfOf with
    | some ss => walkApplicatorList (walkTrace f) "anyOf" ss path
    | none =>
      match schema.oneOfOf with
      | some ss => walkApplicatorList (walkTrace f) "oneOf" ss path
      | none =>
        match schema.allOfOf with
        | some ss => walkApplicatorList (walkTrace f) "allOf" ss path
        | none => do
          let pe ← walkPropsList (walkTrace f) (schema.propertiesOf.getD []) path
          let pate ← patternEventsList (schema.patternPropertiesOf.getD []) path
          .ok (WEvent.vs schema path :: pe ++ pate ++ additionalEvent schema path)

/-- String.prototype.indexOf: position of the first occurrence of the
needle, none for the source's minus one. -/
def strFindAux : List Char → List Char → Option Nat
  | hay, needle =>
    if needle.isPrefixOf hay then some 0
    else
      match hay with
      | [] => none
      | _ :: t => (strFindAux t needle).map (· + 1)

/-- String.prototype.indexOf on strings. -/
def jsIndexOf (hay needle : String) : Option Nat :=
  strFindAux hay.data needle.data

/-- String.prototype.startsWith. -/
def jsStartsWith (s lead : String) : Bool :=
  lead.data.isPrefixOf s.data

/-- String.prototype.endsWith. -/
def jsEndsWith (s tail : String) : Bool :=
  tail.data.isSuffixOf s.data

/-- substring from the start: the first n characters. -/
def strTake (s : String) (n : Nat) : String :=
  String.mk (s.data.take n)

/-- substring to the end: everything after the first n characters. -/
def strDrop (s : String) (n : Nat) : String :=
  String.mk (s.data.drop n)

/-- The character length of a string. -/
def strLen (s : String) : Nat :=
  s.data.length

/-- The whitespace set of String.prototype.trim (the ASCII part). -/
def isTrimWs (c : Char) : Bool :=
  c = ' ' || c = '\t' || c = '\n' || c = '\r' || c = '\x0b' || c = '\x0c'

/-- String.prototype.trim: surrounding whitespace removed. -/
def jsTrim (s : String) : String :=
  String.mk (((s.data.dropWhile isTrimWs).reverse.dropWhile isTrimWs).reverse)

/-- The separator as coerced by JavaScript string concatenation (an
undefined separator concatenates as the text undefined; both public entry
points initialise the separator before any concatenation). -/
def sepStr (options : EnvVarNamingOptions) : String :=
  options.propertySeparator.getD "undefined"

/-- The separator fallback used by the discovery substring check
(options.propertySeparator or a single underscore when falsy). -/
def sepFallback (options : EnvVarNamingOptions) : String :=
  match options.propertySeparator with
  | none => "_"
  | some "" => "_"
  | some s => s

/-- The find predicate of discoverUnnamedProperties for an object-typed
schema (src/discovery.ts via src/common.ts related revision, the
documented behaviour of the README): the property-name suffix must occur in
the candidate at a positive position, and the occurrence must either end the
candidate or be followed by the property separator. -/
def propertySuffixMatches (options : EnvVarNamingOptions)
    (envVarSuffix propertySuffix : String) : Bool :=
  match jsIndexOf envVarSuffix propertySuffix with
  | none => false
  | some i =>
    if i = 0 then false
    else
      let endIndex := i + strLen propertySuffix
      if endIndex ≠ strLen envVarSuffix ∧
          ¬ jsStartsWith (strDrop envVarSuffix endIndex) (sepFallback options)
      then false
      else true

/-- The property name extracted from a candidate suffix for an object-typed
schema: the substring up to the first occurrence of the first matching
property-name suffix, or the whole candidate when none matches. -/
def extractedPropertyName (options : EnvVarNamingOptions)
    (propertyNameSuffixes : List String) (envVarSuffix : String) : String :=
  match propertyNameSuffixes.find? (propertySuffixMatches options envVarSuffix) with
  | some matched => strTake envVarSuffix ((jsIndexOf envVarSuffix matched).getD 0)
  | none => envVarSuffix

/-- A discovered unnamed property: the concrete path and the schema that
applies to it (src/discovery.ts DiscoveredProperty). -/
structure DiscoveredProperty where
  path : ConfigPropertyPath
  schema : Schema

/-- The separator-rendered property-name suffixes of an object schema's
declared properties, used by the discovery matching. -/
def propertyNameSuffixesOf (ext : ExtEnv) (schema : Schema)
    (options : EnvVarNamingOptions) : List String :=
  (schema.propertiesOf.getD []).map
    (fun kv => sepStr options ++ transformPropertyName ext kv.fst options)

/-- Recurses discovery through an applicator keyword's elements,
concatenating the results; a boolean element is an UnsupportedSchema
error. -/
def discoverApplicatorList
    (rec : Schema → Except LoadErr (List DiscoveredProperty))
    (keyword : String) :
    List Schema → Except LoadErr (List DiscoveredProperty)
  | [] => .ok []
  | .boolSchema _ :: _ =>
    .error (.unsupportedSchema
      ("Boolean " ++ keyword ++ " keyword element values are not supported"))
  | s :: rest => do
    let ds ← rec s
    let ds' ← discoverApplicatorList rec keyword rest
    .ok (ds ++ ds')

/-- discoverUnnamedProperties (src/discovery.ts, current revision with the
in-place applicator handling): applicators recurse with the same candidates
and path; an undefined type ignores all candidates; a scalar or array type
takes every candidate verbatim as an unnamed path item; an object type
extracts the property name by the suffix-matching rule; anything else
(including a type list) is an UnsupportedSchema error. -/
def discoverUnnamedProperties (fuel : Nat) (ext : ExtEnv) (schema : Schema)
    (candidateEnvVarNameSuffixes : List String)
    (parentPath : ConfigPropertyPath) (options : EnvVarNamingOptions) :
    Except LoadErr (List DiscoveredProperty) :=
  match fuel with
  | 0 => .error .fuel
  | f + 1 =>
    match schema.anyOfOf, schema.oneOfOf, schema.allOfOf with
    | some ss, _, _ =>
      discoverApplicatorList
        (fun s => discoverUnnamedProperties f ext s candidateEnvVarNameSuffixes
          parentPath options) "anyOf" ss
    | none, some ss, _ =>
      discoverApplicatorList
        (fun s => discoverUnnamedProperties f ext s candidateEnvVarNameSuffixes
          parentPath options) "oneOf" ss
    | none, none, some ss =>
      discoverApplicatorList
        (fun s => discoverUnnamedProperties f ext s candidateEnvVarNameSuffixes
          parentPath options) "allOf" ss
    | none, none, none =>
      match schema.typeOf with
      | none => .ok []
      | some (.single t) =>
        if t = "null" ∨ t = "boolean" ∨ t = "string" ∨ t = "integer" ∨
            t = "number" ∨ t = "array" then
          .ok (candidateEnvVarNameSuffixes.map fun suffix =>
            { path := parentPath ++ [{ value := suffix, named := false }],
              schema := schema })
        else if t = "object" then
          let suffixes := propertyNameSuffixesOf ext schema options
          .ok (candidateEnvVarNameSuffixes.map fun c =>
            { path := parentPath ++
                [{ value := extractedPropertyName options suffixes c,
                   named := false }],
              schema := schema })
        else .error (.unsupportedSchema ("Cannot handle JSON schema type " ++ t))
      | some (.multiple _) =>
        .error (.unsupportedSchema "Cannot handle JSON schema type list")

/-- getEnvVarNamePrefix from src/discovery.ts (renamed here): the parent
path's variable name followed by the separator, or empty for the root. -/
def getEnvVarNameLeader (ext : ExtEnv) (parentPath : ConfigPropertyPath)
    (options : EnvVarNamingOptions) : String :=
  if parentPath.length > 0 then
    getEnvVarName ext parentPath options ++ sepStr options
  else ""

/-- getCandidateEnvVarNameSuffixes from src/discovery.ts: the environment
variable names starting with the leader, with it stripped, in environment
order. -/
def getCandidateEnvVarNameSuffixes (env : Env) (lead : String) : List String :=
  (env.filter fun kv => jsStartsWith kv.fst lead).map
    fun kv => strDrop kv.fst (strLen lead)

/-- The characters escaped by escapeRegExp (src/discovery.ts, from MDN). -/
def regexSpecials : List Char :=
  (".*+?^$()|[]\\").data ++ [curlyOpen, curlyClose]

/-- escapeRegExp from src/discovery.ts. -/
def escapeRegExp (s : String) : String :=
  String.mk (s.data.foldr
    (fun c acc => if c ∈ regexSpecials then '\\' :: c :: acc else c :: acc) [])

/-- getPatternRegex from src/discovery.ts: the pattern itself, unless the
target schema is object-typed, the pattern ends in an unescaped anchor and
the object declares properties, in which case the anchor is replaced by an
alternation of the declared property-name suffixes and the anchor. -/
def getPatternRegex (ext : ExtEnv) (pattern : String) (propertiesSchema : Schema)
    (options : EnvVarNamingOptions) : String :=
  if propertiesSchema.typeOf ≠ some (.single "object") ∨ jsEndsWith pattern "\\$" ∨
      ¬ jsEndsWith pattern "$" then pattern
  else
    let subs := (propertiesSchema.propertiesOf.getD []).map
      (fun kv => escapeRegExp
        (sepStr options ++ transformPropertyName ext kv.fst options))
    if subs.isEmpty then pattern
    else
      strTake pattern (strLen pattern - 1) ++ "(" ++
        joinWith "|" (subs ++ ["$"]) ++ ")"

/-- discoverPatternProperties from src/discovery.ts: candidates are the
suffixes of variables sharing the parent's leader that the built regular
expression accepts (the regular expression engine is the rmatch oracle). -/
def discoverPatternProperties (fuel : Nat) (ext : ExtEnv) (pattern : String)
    (propertiesSchema : Schema) (parentPath : ConfigPropertyPath) (env : Env)
    (options : EnvVarNamingOptions) : Except LoadErr (List DiscoveredProperty) :=
  let regex := getPatternRegex ext pattern propertiesSchema options
  let lead := getEnvVarNameLeader ext parentPath options
  let cands := (getCandidateEnvVarNameSuffixes env lead).filter
    fun sfx => ext.rmatch regex sfx
  discoverUnnamedProperties fuel ext propertiesSchema cands parentPath options

/-- discoverAdditionalProperties from src/discovery.ts: candidates are all
suffixes of variables sharing the parent's leader. -/
def discoverAdditionalProperties (fuel : Nat) (ext : ExtEnv)
    (propertiesSchema : Schema) (parentPath : ConfigPropertyPath) (env : Env)
    (options : EnvVarNamingOptions) : Except LoadErr (List DiscoveredProperty) :=
  let lead := getEnvVarNameLeader ext parentPath options
  let cands := getCandidateEnvVarNameSuffixes env lead
  discoverUnnamedProperties fuel ext propertiesSchema cands parentPath options

/-- The consumption events the model records: set when an environment
variable's name is recorded in envVarNames after a successful parse,
conflict when a visit finds its derived name already recorded for an
earlier path and skips. -/
inductive LEvent where
  | set (name : String) (path : ConfigPropertyPath)
  | conflict (name : String) (path : ConfigPropertyPath)
deriving DecidableEq

/-- The per-call mutable state of the loader: the envVarNames map of
consumed names (in consumption order), the config object under
construction, and the recorded event trace. -/
structure LState where
  envVarNames : List (String × ConfigPropertyPath)
  config : List (String × JSONValue)
  events : List LEvent

/-- The empty loader state. -/
def LState.initial : LState := { envVarNames := [], config := [], events := [] }

/-- Lookup in the envVarNames map. -/
def namesLookup (m : List (String × ConfigPropertyPath)) (n : String) :
    Option ConfigPropertyPath :=
  (m.find? fun kv => kv.fst == n).map (·.snd)

/-- readFromEnvVar from src/environment.ts: derive the path's variable name,
skip if the name was already consumed (recording a conflict event), skip if
the variable is unset, otherwise parse its value, and on success record the
name against this path (recording a set event). -/
def readFromEnvVar (pf : Nat) (ext : ExtEnv) (env : Env) (schema : Schema)
    (configPropertyPath : ConfigPropertyPath) (st : LState)
    (options : EnvVarNamingOptions) :
    Except LoadErr (Option JSONValue × LState) :=
  match namesLookup st.envVarNames (getEnvVarName ext configPropertyPath options) with
  | some _ =>
    .ok (none, { st with
      events := st.events ++
        [.conflict (getEnvVarName ext configPropertyPath options) configPropertyPath] })
  | none =>
    match envGet env (getEnvVarName ext configPropertyPath options) with
    | none => .ok (none, st)
    | some envVarValue => do
      let v ← parseEnvVarValue pf envVarValue schema
      match v with
      | some value =>
        .ok (some value, { st with
          envVarNames := st.envVarNames ++
            [(getEnvVarName ext configPropertyPath options, configPropertyPath)],
          events := st.events ++
            [.set (getEnvVarName ext configPropertyPath options) configPropertyPath] })
      | none => .ok (none, st)

/-- readFromFileVariant from src/environment.ts: the variable's value is a
file path; a falsy path, a failed read, or content that trims to the empty
string all yield undefined. -/
def readFromFileVariant (ext : ExtEnv) (env : Env) (envVarName : String) :
    Option String :=
  match envGet env envVarName with
  | none => none
  | some filePath =>
    if filePath = "" then none
    else
      match ext.fsRead filePath with
      | none => none
      | some content =>
        if jsTrim content = "" then none else some (jsTrim content)

/-- readFromFileEnvVar from src/environment.ts: like readFromEnvVar but for
the variable named by the path extended with the literal unnamed FILE
segment, reading the raw value from the referenced file. -/
def readFromFileEnvVar (pf : Nat) (ext : ExtEnv) (env : Env) (schema : Schema)
    (configPropertyPath : ConfigPropertyPath) (st : LState)
    (options : EnvVarNamingOptions) :
    Except LoadErr (Option JSONValue × LState) :=
  match namesLookup st.envVarNames (getEnvVarName ext
    (configPropertyPath ++ [{ value := "FILE", named := false }]) options) with
  | some _ =>
    .ok (none, { st with
      events := st.events ++
        [.conflict (getEnvVarName ext
          (configPropertyPath ++ [{ value := "FILE", named := false }]) options)
          configPropertyPath] })
  | none =>
    match envGet env (getEnvVarName ext
      (configPropertyPath ++ [{ value := "FILE", named := false }]) options) with
    | none => .ok (none, st)
    | some _ =>
      match readFromFileVariant ext env (getEnvVarName ext
        (configPropertyPath ++ [{ value := "FILE", named := false }]) options) with
      | none => .ok (none, st)
      | some rawValue => do
        let v ← parseEnvVarValue pf rawValue schema
        match v with
        | some value =>
          .ok (some value, { st with
            envVarNames := st.envVarNames ++
              [(getEnvVarName ext
                (configPropertyPath ++ [{ value := "FILE", named := false }]) options,
                configPropertyPath)],
            events := st.events ++
              [.set (getEnvVarName ext
                (configPropertyPath ++ [{ value := "FILE", named := false }]) options)
                configPropertyPath] })
        | none => .ok (none, st)

/-- readFromEnvVars, the composition the loader's visitSchema performs and
src/override.ts imports: the direct variable first, and only when it yields
nothing, the FILE-suffixed variant. -/
def readFromEnvVars (pf : Nat) (ext : ExtEnv) (env : Env) (schema : Schema)
    (configPropertyPath : ConfigPropertyPath) (st : LState)
    (options : EnvVarNamingOptions) :
    Except LoadErr (Option JSONValue × LState) := do
  let (v, st1) ← readFromEnvVar pf ext env schema configPropertyPath st options
  match v with
  | some _ => .ok (v, st1)
  | none => readFromFileEnvVar pf ext env schema configPropertyPath st1 options

/-- createParentObjects followed by the final assignment
(src/environment.ts): walk the path's ancestor segments, creating an empty
object where a segment is missing and failing on a non-object value, then
assign the value at the last segment. -/
def setAtPath : List (String × JSONValue) → List String → JSONValue →
    Except LoadErr (List (String × JSONValue))
  | kvs, [], _ => .ok kvs
  | kvs, [k], v => .ok (objSet kvs k v)
  | kvs, k :: rest, v =>
    match (objGet kvs k).getD (.obj []) with
    | .obj ckvs => do
      let ckvs' ← setAtPath ckvs rest v
      .ok (objSet kvs k (.obj ckvs'))
    | _ => .error (.typeErr "Cannot recurse into non-object property")

/-- The loader visitor's visitSchema (src/environment.ts): nothing at the
root path; otherwise read the direct variable then the FILE variant, and
write a successfully parsed value into the config at the path. -/
def visitSchemaLoad (pf : Nat) (ext : ExtEnv) (env : Env) (schema : Schema)
    (configPropertyPath : ConfigPropertyPath) (st : LState)
    (options : EnvVarNamingOptions) : Except LoadErr LState :=
  if configPropertyPath.isEmpty then .ok st
  else do
    let (v, st1) ← readFromEnvVars pf ext env schema configPropertyPath st options
    match v with
    | none => .ok st1
    | some value => do
      let kvs ← setAtPath st1.config (configPropertyPath.map (·.value)) value
      .ok { st1 with config := kvs }

/-- Walks the elements of an applicator keyword with a stateful visitor,
threading the state; a boolean element is an UnsupportedSchema error. -/
def stateSchemaList
    (rec : Schema → ConfigPropertyPath → LState → Except LoadErr LState)
    (keyword : String) :
    List Schema → ConfigPropertyPath → LState → Except LoadErr LState
  | [], _, st => .ok st
  | .boolSchema _ :: _, _, _ =>
    .error (.unsupportedSchema
      ("Boolean " ++ keyword ++ " keyword element values are not supported"))
  | s :: rest, path, st => do
    let st1 ← rec s path st
    stateSchemaList rec keyword rest path st1

/-- Walks the declared properties with a stateful visitor, extending the
path with a named item; a boolean property schema is an UnsupportedSchema
error. -/
def statePropsList
    (rec : Schema → ConfigPropertyPath → LState → Except LoadErr LState) :
    List (String × Schema) → ConfigPropertyPath → LState → Except LoadErr LState
  | [], _, st => .ok st
  | (_, .boolSchema _) :: _, _, _ =>
    .error (.unsupportedSchema
      "Boolean properties keyword object properties are not supported")
  | (name, s) :: rest, path, st => do
    let st1 ← rec s (path ++ [{ value := name, named := true }]) st
    statePropsList rec rest path st1

/-- Walks a list of discovered properties through the visitor re-entry
(walkConfigProperties on each discovered schema and path). -/
def stateDiscList
    (rec : Schema → ConfigPropertyPath → LState → Except LoadErr LState) :
    List DiscoveredProperty → LState → Except LoadErr LState
  | [], st => .ok st
  | d :: rest, st => do
    let st1 ← rec d.schema d.path st
    stateDiscList rec rest st1

/-- Walks the pattern properties with a stateful visitor: each pattern
discovers its properties and re-walks them; a boolean pattern schema is an
UnsupportedSchema error. -/
def statePatsList
    (discover : String → Schema → Except LoadErr (List DiscoveredProperty))
    (rec : Schema → ConfigPropertyPath → LState → Except LoadErr LState) :
    List (String × Schema) → LState → Except LoadErr LState
  | [], st => .ok st
  | (_, .boolSchema _) :: _, _ =>
    .error (.unsupportedSchema
      "Boolean patternProperties keyword object properties are not supported")
  | (pattern, s) :: rest, st => do
    let ds ← discover pattern s
    let st1 ← stateDiscList rec ds st
    statePatsList discover rec rest st1

/-- The loader's walk (walkConfigProperties from src/walking.ts with the
loadFromEnv visitor of src/environment.ts inlined): applicators
short-circuit the node; otherwise visitSchema runs, then the declared
properties recurse, then pattern properties and additional properties
discover and re-walk their discovered paths. -/
def loadGo : Nat → ExtEnv → Env → Schema → ConfigPropertyPath →
    EnvVarNamingOptions → LState → Except LoadErr LState
  | 0, _, _, _, _, _, _ => .error .fuel
  | f + 1, ext, env, schema, path, options, st =>
    match schema.anyOfOf with
    | some ss =>
      stateSchemaList (fun s p st' => loadGo f ext env s p options st')
        "anyOf" ss path st
    | none =>
      match schema.oneOfOf with
      | some ss =>
        stateSchemaList (fun s p st' => loadGo f ext env s p options st')
          "oneOf" ss path st
      | none =>
        match schema.allOfOf with
        | some ss =>
          stateSchemaList (fun s p st' => loadGo f ext env s p options st')
            "allOf" ss path st
        | none => do
          let st0 ← visitSchemaLoad f ext env schema path st options
          let st1 ← statePropsList (fun s p st' => loadGo f ext env s p options st')
            (schema.propertiesOf.getD []) path st0
          let st2 ← statePatsList
            (fun pattern s => discoverPatternProperties f ext pattern s path env options)
            (fun s p st' => loadGo f ext env s p options st')
            (schema.patternPropertiesOf.getD []) st1
          match schema.additionalPropertiesOf with
          | some (.boolSchema _) => .ok st2
          | none => .ok st2
          | some aps => do
            let ds ← discoverAdditionalProperties f ext aps path env options
            stateDiscList (fun s p st' => loadGo f ext env s p options st') ds st2

/-- loadFromEnv from src/environment.ts: initialise the options (mutating
the caller's object), walk the schema from the root with the loader
visitor, and return the built config object; the model also returns the
caller's options object after the call and the recorded event trace. -/
def loadFromEnv (fuel : Nat) (ext : ExtEnv) (env : Env) (schema : Schema)
    (options : EnvVarNamingOptions) :
    Except LoadErr (List (String × JSONValue) × EnvVarNamingOptions × List LEvent) := do
  let st ← loadGo fuel ext env schema [] (loadFromEnvInitOptions options).2 LState.initial
  .ok (st.config, (loadFromEnvInitOptions options).1, st.events)

/-- Fueled structural equality of schemas (the model of the lodash isEqual
calls of src/override.ts; on the identical subtrees the homogeneity checks
compare, key order agrees and structural equality coincides with deep
equality). -/
def schemaBEq : Nat → Schema → Schema → Bool
  | 0, _, _ => false
  | _ + 1, .boolSchema a, .boolSchema b => a == b
  | f + 1, .objSchema (.mk t1 p1 pp1 ap1 it1 ai1 ao1 oo1 al1),
      .objSchema (.mk t2 p2 pp2 ap2 it2 ai2 ao2 oo2 al2) =>
    let eqS := schemaBEq f
    let eqList : List Schema → List Schema → Bool := fun a b =>
      a.length = b.length && (a.zip b).all fun kv => eqS kv.fst kv.snd
    let eqProps : List (String × Schema) → List (String × Schema) → Bool := fun a b =>
      a.length = b.length &&
        (a.zip b).all fun kv => kv.fst.fst = kv.snd.fst && eqS kv.fst.snd kv.snd.snd
    let eqOpt : Option Schema → Option Schema → Bool := fun a b =>
      match a, b with
      | none, none => true
      | some x, some y => eqS x y
      | _, _ => false
    let eqOptList : Option (List Schema) → Option (List Schema) → Bool := fun a b =>
      match a, b with
      | none, none => true
      | some x, some y => eqList x y
      | _, _ => false
    let eqOptProps : Option (List (String × Schema)) →
        Option (List (String × Schema)) → Bool := fun a b =>
      match a, b with
      | none, none => true
      | some x, some y => eqProps x y
      | _, _ => false
    let eqItems : Option ItemsVal → Option ItemsVal → Bool := fun a b =>
      match a, b with
      | none, none => true
      | some (.one x), some (.one y) => eqS x y
      | some (.many x), some (.many y) => eqList x y
      | _, _ => false
    decide (t1 = t2) && eqOptProps p1 p2 && eqOptProps pp1 pp2 && eqOpt ap1 ap2 &&
      eqItems it1 it2 && eqOpt ai1 ai2 && eqOptList ao1 ao2 && eqOptList oo1 oo2 &&
      eqOptList al1 al2
  | _ + 1, _, _ => false

/-- describesObject from src/override.ts: not a boolean, and the type
keyword is the single string object. -/
def describesObject : Schema → Bool
  | .boolSchema _ => false
  | s => s.typeOf == some (.single "object")

/-- areItemsHomogenousObjects from src/override.ts on a list: non-empty,
first element object-typed, all others deeply equal to the first. -/
def areItemsHomogenousObjectsList (f : Nat) : List Schema → Bool
  | [] => false
  | first :: rest => describesObject first && rest.all fun it => schemaBEq f it first

/-- areItemsHomogenousObjects from src/override.ts on an items value. -/
def areItemsHomogenousObjectsItems (f : Nat) : ItemsVal → Bool
  | .many ss => areItemsHomogenousObjectsList f ss
  | .one s => describesObject s

/-- An items keyword value as tested for truthiness in JavaScript: the
boolean schema false is falsy and treated as absent. -/
def truthyItems : Option ItemsVal → Option ItemsVal
  | some (.one (.boolSchema false)) => none
  | x => x

/-- A schema keyword value as tested for truthiness: the boolean schema
false is falsy and treated as absent. -/
def truthySchema : Option Schema → Option Schema
  | some (.boolSchema false) => none
  | x => x

/-- isArrayOfHomogenousObjects from src/override.ts: at least one of items
and additionalItems must be (truthily) present; when both are, they are
concatenated and checked together; otherwise each present one is checked on
its own. -/
def isArrayOfHomogenousObjects (f : Nat) (arraySchema : Schema) : Bool :=
  match truthyItems arraySchema.itemsOf, truthySchema arraySchema.additionalItemsOf with
  | none, none => false
  | some items, some ai =>
    let l := match items with
      | .one s => [ai, s]
      | .many ss => ai :: ss
    areItemsHomogenousObjectsList f l
  | some items, none => areItemsHomogenousObjectsItems f items
  | none, some ai => describesObject ai

/-- getItemSchema from src/override.ts: additionalItems when it is an
object, else the first element of an items list when it is not a boolean,
else a singular object items schema. -/
def getItemSchema (schema : Schema) : Option Schema :=
  match schema.additionalItemsOf with
  | some (.objSchema c) => some (.objSchema c)
  | _ =>
    match schema.itemsOf with
    | some (.many (s :: _)) =>
      match s with
      | .boolSchema _ => none
      | _ => some s
    | some (.many []) => none
    | some (.one (.objSchema c)) => some (.objSchema c)
    | _ => none

/-- Merges an object's members as lodash defaultsDeep does for one source:
a missing destination key gets the source value, an existing one recurses
through the element merge. -/
def mergeObjWith (rec : JSONValue → JSONValue → JSONValue) :
    List (String × JSONValue) → List (String × JSONValue) →
    List (String × JSONValue)
  | dkvs, [] => dkvs
  | dkvs, (k, sv) :: rest =>
    let dkvs' :=
      match objGet dkvs k with
      | none => dkvs ++ [(k, sv)]
      | some dv => objSet dkvs k (rec dv sv)
    mergeObjWith rec dkvs' rest

/-- Merges arrays index-wise as lodash defaultsDeep does (destination
entries win, a longer source extends the destination). -/
def mergeArrWith (rec : JSONValue → JSONValue → JSONValue) :
    List JSONValue → List JSONValue → List JSONValue
  | ds, [] => ds
  | [], s :: sr => s :: mergeArrWith rec [] sr
  | d :: dr, s :: sr => rec d s :: mergeArrWith rec dr sr

/-- lodash defaultsDeep for one destination and one source: objects merge by
key, arrays by index, anything else keeps the destination. -/
def jsDefaultsPair : Nat → JSONValue → JSONValue → JSONValue
  | 0, dst, _ => dst
  | f + 1, .obj dkvs, .obj skvs => .obj (mergeObjWith (jsDefaultsPair f) dkvs skvs)
  | f + 1, .arr ds, .arr ss => .arr (mergeArrWith (jsDefaultsPair f) ds ss)
  | _ + 1, dst, _ => dst

/-- createOverrideElement from src/override.ts: a fresh object holding only
the overridden value, rooted at the path segments after the meta marker; the
final assignment always uses the last item of the full path, which for an
empty remainder is the marker itself. -/
def createOverrideElement (configPropertyPath : ConfigPropertyPath)
    (metaPathItemIndex : Nat) (value : JSONValue) :
    Except LoadErr (List (String × JSONValue)) :=
  let tailItems := configPropertyPath.drop (metaPathItemIndex + 1)
  match configPropertyPath.getLast? with
  | none => .ok []
  | some last =>
    if tailItems.isEmpty then .ok (objSet [] last.value value)
    else setAtPath [] (tailItems.map (·.value)) value

/-- mergeIntoArrayElement from src/override.ts: deep-default the freshly
built override fragment onto the existing element (the fragment's values
win, the element fills in the rest). -/
def mergeIntoArrayElement (f : Nat) (configPropertyPath : ConfigPropertyPath)
    (metaPathItemIndex : Nat) (element overrideValue : JSONValue) :
    Except LoadErr JSONValue := do
  let elementObject ← createOverrideElement configPropertyPath metaPathItemIndex
    overrideValue
  .ok (jsDefaultsPair f (jsDefaultsPair f (.obj []) (.obj elementObject)) element)

/-- The descent of getArrayToOverride from src/override.ts: walk the path
through the config, failing on any non-object intermediate value, and
return the final value when it is an array. -/
def getArrayToOverrideGo : Option JSONValue → ConfigPropertyPath →
    Except LoadErr (Option (List JSONValue))
  | cur, [] =>
    match cur with
    | some (.arr xs) => .ok (some xs)
    | _ => .ok none
  | some (.obj kvs), item :: rest => getArrayToOverrideGo (objGet kvs item.value) rest
  | _, _ :: _ => .error (.typeErr "Cannot recurse into non-object property")

/-- getArrayToOverride from src/override.ts at the config root. -/
def getArrayToOverride (config : List (String × JSONValue))
    (configPropertyPath : ConfigPropertyPath) :
    Except LoadErr (Option (List JSONValue)) :=
  getArrayToOverrideGo (some (.obj config)) configPropertyPath

/-- applyToEveryElement from src/override.ts: merge the single parsed value
into every element of the target array (located by the path up to the every
marker) and write the array back. -/
def applyToEveryElement (f : Nat) (config : List (String × JSONValue))
    (configPropertyPath : ConfigPropertyPath) (value : JSONValue)
    (everyIndex : Nat) : Except LoadErr (List (String × JSONValue)) := do
  match ← getArrayToOverride config (configPropertyPath.take everyIndex) with
  | none => .ok config
  | some xs => do
    let xs' ← xs.mapM fun element =>
      mergeIntoArrayElement f configPropertyPath everyIndex element value
    setAtPath config ((configPropertyPath.take everyIndex).map (·.value)) (.arr xs')

/-- The element-wise merge of applyToEachElement, up to the shorter of the
two arrays. -/
def mergeEachGo (f : Nat) (configPropertyPath : ConfigPropertyPath)
    (eachIndex : Nat) :
    List JSONValue → List JSONValue → Except LoadErr (List JSONValue)
  | xs, [] => .ok xs
  | [], _ => .ok []
  | x :: xr, v :: vr => do
    let x' ← mergeIntoArrayElement f configPropertyPath eachIndex x v
    let rest ← mergeEachGo f configPropertyPath eachIndex xr vr
    .ok (x' :: rest)

/-- applyToEachElement from src/override.ts: skip unless the parsed value is
an array, then merge element i of the value into element i of the target
array, up to the shorter length, and write the array back. -/
def applyToEachElement (f : Nat) (config : List (String × JSONValue))
    (configPropertyPath : ConfigPropertyPath) (value : JSONValue)
    (eachIndex : Nat) : Except LoadErr (List (String × JSONValue)) := do
  match ← getArrayToOverride config (configPropertyPath.take eachIndex) with
  | none => .ok config
  | some xs =>
    match value with
    | .arr vs => do
      let xs' ← mergeEachGo f configPropertyPath eachIndex xs vs
      setAtPath config ((configPropertyPath.take eachIndex).map (·.value)) (.arr xs')
    | _ => .ok config

/-- findOnlyIndex from src/override.ts: the index of the needle when it
occurs exactly once, none (the source's minus one) otherwise. -/
def findOnlyIndex (l : ConfigPropertyPath) (needle : PathItem) : Option Nat :=
  match (l.enum.filter fun ix => ix.snd = needle).map (·.fst) with
  | [i] => some i
  | _ => none

/-- The array-override schema wrap used for an each marker: an array schema
whose single items schema is the visited leaf schema. -/
def eachArraySchemaOf (schema : Schema) : Schema :=
  .objSchema (.mk (some (.single "array")) none none none (some (.one schema))
    none none none none)

/-- The overrideArrayValues walk (walkConfigProperties with the
src/override.ts visitor inlined, including walkObjectArrayProperties):
the visitor reads an every-marked or each-marked variable and applies it to
the located array, then synthesises the every and each sub-walks (in that
source order) for an array of homogeneous objects, then the node's declared,
pattern and additional properties proceed as in the loader. -/
def overrideGo : Nat → ExtEnv → Env → Schema → ConfigPropertyPath →
    EnvVarNamingOptions → LState → Except LoadErr LState
  | 0, _, _, _, _, _, _ => .error .fuel
  | f + 1, ext, env, schema, path, options, st =>
    match schema.anyOfOf with
    | some ss =>
      stateSchemaList (fun s p st' => overrideGo f ext env s p options st')
        "anyOf" ss path st
    | none =>
      match schema.oneOfOf with
      | some ss =>
        stateSchemaList (fun s p st' => overrideGo f ext env s p options st')
          "oneOf" ss path st
      | none =>
        match schema.allOfOf with
        | some ss =>
          stateSchemaList (fun s p st' => overrideGo f ext env s p options st')
            "allOf" ss path st
        | none => do
          let st0 ←
            if path.isEmpty then .ok st
            else do
              let everyIndex := findOnlyIndex path META_PATH_ITEM_EVERY
              let eachIndex := findOnlyIndex path META_PATH_ITEM_EACH
              let stA ←
                match everyIndex, eachIndex with
                | some ei, none => do
                  let (v, st1) ← readFromEnvVars f ext env schema path st options
                  match v with
                  | some value => do
                    let cfg ← applyToEveryElement f st1.config path value ei
                    .ok { st1 with config := cfg }
                  | none => .ok st1
                | _, _ => .ok st
              let stB ←
                match everyIndex, eachIndex with
                | none, some ei => do
                  let (v, st2) ← readFromEnvVars f ext env (eachArraySchemaOf schema)
                    path stA options
                  match v with
                  | some value => do
                    let cfg ← applyToEachElement f st2.config path value ei
                    .ok { st2 with config := cfg }
                  | none => .ok st2
                | _, _ => .ok stA
              if schema.typeOf ≠ some (.single "array") then .ok stB
              else if ¬ isArrayOfHomogenousObjects f schema then .ok stB
              else
                match getItemSchema schema with
                | none => .ok stB
                | some itemSchema => do
                  let st3 ← overrideGo f ext env itemSchema
                    (path ++ [META_PATH_ITEM_EVERY]) options stB
                  overrideGo f ext env itemSchema
                    (path ++ [META_PATH_ITEM_EACH]) options st3
          let st1 ← statePropsList (fun s p st' => overrideGo f ext env s p options st')
            (schema.propertiesOf.getD []) path st0
          let st2 ← statePatsList
            (fun pattern s => discoverPatternProperties f ext pattern s path env options)
            (fun s p st' => overrideGo f ext env s p options st')
            (schema.patternPropertiesOf.getD []) st1
          match schema.additionalPropertiesOf with
          | some (.boolSchema _) => .ok st2
          | none => .ok st2
          | some aps => do
            let ds ← discoverAdditionalProperties f ext aps path env options
            stateDiscList (fun s p st' => overrideGo f ext env s p options st') ds st2

/-- overrideArrayValues from src/override.ts: initialise a copy of the
options, deep-copy the config, walk the schema from the root with the
override visitor, and return the overridden config. -/
def overrideArrayValues (fuel : Nat) (ext : ExtEnv)
    (config : List (String × JSONValue)) (env : Env) (schema : Schema)
    (options : EnvVarNamingOptions) :
    Except LoadErr (List (String × JSONValue)) := do
  let init := overrideArrayValuesInitOptions options
  let st ← overrideGo fuel ext env schema [] init.2
    { envVarNames := [], config := config, events := [] }
  .ok st.config

/-- Word-splitting core of the lodash snakeCase model for ASCII identifiers:
classifies characters (lower, upper, digit, separator) and inserts an
underscore at lower-to-upper, letter-to-digit and digit-to-letter
boundaries, lowercasing everything. -/
def snakeGo : Bool → Nat → List Char → List Char
  | _, _, [] => []
  | started, prev, c :: rest =>
    let k := if 'a' ≤ c ∧ c ≤ 'z' then 0
      else if 'A' ≤ c ∧ c ≤ 'Z' then 1
      else if c.isDigit then 2 else 3
    if k = 3 then snakeGo started 3 rest
    else
      let lower := c.toLower
      let boundary := started ∧ (prev = 3 ∨ (prev = 0 ∧ k = 1) ∨
        (prev ≠ 2 ∧ k = 2) ∨ (prev = 2 ∧ k ≠ 2))
      (if boundary then ['_', lower] else [lower]) ++ snakeGo true k rest

/-- A concrete model of lodash snakeCase, agreeing with it on the ASCII
camelCase identifiers exercised here; used as the snake oracle of concrete
witnesses. -/
def asciiSnakeCase (s : String) : String :=
  String.mk (snakeGo false 3 s.data)

/-- A concrete oracle record for witnesses: the ASCII snakeCase model, a
regular-expression oracle that accepts nothing, and a filesystem read. -/
def witnessExt (fs : String → Option String) : ExtEnv :=
  { snake := asciiSnakeCase, rmatch := fun _ _ => false, fsRead := fs }

/-- The names of the set events of a trace, in order. -/
def setNames (evs : List LEvent) : List String :=
  evs.filterMap fun e =>
    match e with
    | .set n _ => some n
    | .conflict _ _ => none

/-- Soundness of a consumption trace with respect to a list of names already
claimed: a set event's name must not be claimed yet and claims it; a
conflict event's name must already be claimed. -/
def eventsSound : List String → List LEvent → Prop
  | _, [] => True
  | claimed, .set n _ :: rest => n ∉ claimed ∧ eventsSound (claimed ++ [n]) rest
  | claimed, .conflict n _ :: rest => n ∈ claimed ∧ eventsSound claimed rest

/-- The loader-state invariant of the consumption ledger: the trace is sound
and the envVarNames map holds exactly the names of the set events, in
order. -/
def ledgerOK (st : LState) : Prop :=
  eventsSound [] st.events ∧ st.envVarNames.map (·.fst) = setNames st.events

/-- Every character of the list is JSON whitespace. -/
def AllWs (l : List Char) : Prop := ∀ c ∈ l, isJsonWs c = true

/-- The fraction digits of a textual fraction part (empty, or a dot followed
by digits). -/
def fracDigitsOf (fp : List Char) : List Char := fp.drop 1

/-- The exponent value of a textual exponent part (empty, or an exponent
letter, an optional sign, and digits). -/
def expIntOf (ep : List Char) : ℤ :=
  match ep with
  | [] => 0
  | _ :: rest =>
    match rest with
    | '+' :: ds => (digitsVal ds : ℤ)
    | '-' :: ds => -(digitsVal ds : ℤ)
    | ds => (digitsVal ds : ℤ)

/-- The rational value denoted by the textual pieces of a decimal token. -/
def grammarValue (neg : Bool) (ip fp ep : List Char) : ℚ :=
  ratOfParts neg ip (fracDigitsOf fp) (expIntOf ep)

/-- The strict decimal grammar of the spec, as a declarative decomposition:
an optional minus sign; digits with no leading zero unless the integer part
is exactly the digit zero; an optional dot followed by at least one digit;
an optional exponent letter with an optional sign and at least one digit;
and the token's value. -/
def NumToken (tok : List Char) (q : ℚ) : Prop :=
  ∃ (neg : Bool) (ip fp ep : List Char),
    tok = (if neg then ['-'] else []) ++ ip ++ fp ++ ep ∧
    (ip = ['0'] ∨ ∃ c cs, ip = c :: cs ∧ c.isDigit ∧ c ≠ '0' ∧ ∀ d ∈ cs, d.isDigit) ∧
    (fp = [] ∨ ∃ ds, fp = '.' :: ds ∧ ds ≠ [] ∧ ∀ d ∈ ds, d.isDigit) ∧
    (ep = [] ∨ ∃ e sgn ds, (e = 'e' ∨ e = 'E') ∧
      (sgn = [] ∨ sgn = ['+'] ∨ sgn = ['-']) ∧ ds ≠ [] ∧ (∀ d ∈ ds, d.isDigit) ∧
      ep = e :: (sgn ++ ds)) ∧
    q = grammarValue neg ip fp ep

/-- The needle occurs in the haystack at character position i. -/
def OccursAt (hay needle : List Char) (i : Nat) : Prop :=
  ∃ pre post, hay = pre ++ needle ++ post ∧ pre.length = i

/-- The needle's first occurrence in the haystack is at position i. -/
def FirstOccursAt (hay needle : List Char) (i : Nat) : Prop :=
  OccursAt hay needle i ∧ ∀ j, OccursAt hay needle j → i ≤ j

/-- Scenario fixture: the two-level object schema of the loader tests. -/
def schemaCamel : Schema :=
  .objSchema (.mk (some (.single "object"))
    (some [("camelCased", .objSchema (.mk (some (.single "object"))
      (some [("propertyName", typedSchema "string")])
      none none none none none none none))])
    none none none none none none none)

/-- Fixture: an object schema with a single numeric property named length,
the discovery counterexample's sub-schema. -/
def schemaWithLength : Schema :=
  .objSchema (.mk (some (.single "object"))
    (some [("length", typedSchema "number")])
    none none none none none none none)

/-- Fixture: the homogeneous array item schema of the override scenarios. -/
def overrideItemSchema : Schema :=
  .objSchema (.mk (some (.single "object"))
    (some [("prop1", typedSchema "string"), ("prop2", typedSchema "number")])
    none none none none none none none)

/-- Fixture: the root schema of the override scenarios: one array property
of homogeneous objects. -/
def overrideRootSchema : Schema :=
  .objSchema (.mk (some (.single "object"))
    (some [("array", .objSchema (.mk (some (.single "array"))
      none none none (some (.one overrideItemSchema)) none none none none))])
    none none none none none none none)

/-- Fixture: the existing config of the override scenarios. -/
def overrideConfig : List (String × JSONValue) :=
  [("array", .arr [.obj [("prop1", .str "a"), ("prop2", .num 0)],
                   .obj [("prop1", .str "b")]])]

/-- Options with every field absent, as a caller supplying an empty options
object. -/
def emptyOptions : EnvVarNamingOptions :=
  { caseKind := none, propertySeparator := none, optPre := none }

/-- C8: a boolean-typed parse returns true iff the raw value is exactly
the string true, false iff it is exactly the string false, case-sensitively,
and undefined for every other string, and parseEnvVarValue routes the
boolean type to parseBoolean. -/
theorem c8_boolean_exact_strings :
    (∀ (f : Nat) (v : String),
      parseEnvVarValue (f + 1) v (typedSchema "boolean") = .ok (parseBoolean v)) ∧
    (∀ v : String, parseBoolean v = some (.bool true) ↔ v = "true") ∧
    (∀ v : String, parseBoolean v = some (.bool false) ↔ v = "false") ∧
    (∀ v : String, parseBoolean v = none ↔ v ≠ "true" ∧ v ≠ "false") := by
  refine ⟨?_, ?_, ?_, ?_⟩
  · intro f v
    rfl
  · intro v
    unfold parseBoolean
    split_ifs with h1 h2 <;> simp_all
  · intro v
    unfold parseBoolean
    split_ifs with h1 h2 <;> simp_all
  · intro v
    unfold parseBoolean
    split_ifs with h1 h2 <;> simp_all

/-- C4: the recorded behaviour of overrideArrayValues on the README
scenario: with both an every marker and a two-element each marker for the
same two-element array, the each values (2 and 3) are what remain on prop2,
because the code applies every before each at each walk step rather than
resolving all each applications first. -/
theorem c4_each_every_code_behavior :
    overrideArrayValues 12 (witnessExt fun _ => none) overrideConfig
      [("array__every__prop_2", "1"), ("array__each__prop_2", "2,3")]
      overrideRootSchema emptyOptions =
    .ok [("array", .arr [.obj [("prop2", .num 2), ("prop1", .str "a")],
                         .obj [("prop2", .num 3), ("prop1", .str "b")]])] := rfl

/-- C9 counterexample: a boolean element inside an items list does not
abort the call; the CSV parse of the value 1 against it returns undefined
instead of an UnsupportedSchema error. -/
theorem c9_boolean_schema_errors_cx :
    parseEnvVarValue 2 "1"
      (.objSchema (.mk (some (.single "array")) none none none
        (some (.many [.boolSchema true])) none none none none)) = .ok none := rfl

theorem exceptBindOk {α β ε : Type} (a : α) (f : α → Except ε β) :
    (Except.ok a >>= f) = f a := rfl

theorem exceptBindErr {α β ε : Type} (e : ε) (f : α → Except ε β) :
    ((Except.error e : Except ε α) >>= f) = .error e := rfl

theorem walkApplicatorList_join (f : Nat) (kw : String) :
    ∀ (l : List Schema) (path : ConfigPropertyPath) (evs : List WEvent),
      walkApplicatorList (walkTrace f) kw l path = .ok evs →
      ∃ parts : List (List WEvent), parts.length = l.length ∧ evs = parts.flatten ∧
        ∀ i (h : i < l.length) (h2 : i < parts.length),
          walkTrace f (l.get ⟨i, h⟩) path = .ok (parts.get ⟨i, h2⟩) := by
  intro l
  induction l with
  | nil =>
    intro path evs h
    simp only [walkApplicatorList] at h
    cases h
    exact ⟨[], by simp, by simp, fun i hi => absurd hi (by simp)⟩
  | cons s rest ih =>
    intro path evs h
    cases s with
    | boolSchema b => simp [walkApplicatorList] at h
    | objSchema core =>
      simp only [walkApplicatorList] at h
      cases h1 : walkTrace f (.objSchema core) path with
      | error e => rw [h1, exceptBindErr] at h; cases h
      | ok evs1 =>
        rw [h1, exceptBindOk] at h
        cases h2 : walkApplicatorList (walkTrace f) kw rest path with
        | error e => rw [h2, exceptBindErr] at h; cases h
        | ok evs2 =>
          rw [h2, exceptBindOk] at h
          cases h
          obtain ⟨parts, hlen, hjoin, hget⟩ := ih path evs2 h2
          refine ⟨evs1 :: parts, by simp [hlen], by simp [hjoin], ?_⟩
          intro i hi hi2
          cases i with
          | zero => simpa using h1
          | succ j =>
            simp only [List.get]
            exact hget j (by simpa using hi) (by simpa using hi2)

theorem sizeOf_mem_list {s : Schema} {l : List Schema} (h : s ∈ l) :
    sizeOf s < sizeOf l := List.sizeOf_lt_of_mem h

theorem sizeOf_mem_applicator {core : SchemaCore} {l : List Schema} {s : Schema}
    (h : (Schema.objSchema core).anyOfOf = some l ∨
      (Schema.objSchema core).oneOfOf = some l ∨ (Schema.objSchema core).allOfOf = some l)
    (hm : s ∈ l) : sizeOf s < sizeOf (Schema.objSchema core) := by
  obtain ⟨t, P, Pat, A, I, AI, ao, oo, al⟩ := core
  have hs := List.sizeOf_lt_of_mem hm
  rcases h with h | h | h <;>
    (simp [Schema.anyOfOf, Schema.oneOfOf, Schema.allOfOf] at h; subst h; simp; omega)

theorem sizeOf_mem_properties {core : SchemaCore} {props : List (String × Schema)}
    (h : (Schema.objSchema core).propertiesOf = some props) {n : String} {ps : Schema}
    (hm : (n, ps) ∈ props) : sizeOf ps < sizeOf (Schema.objSchema core) := by
  obtain ⟨t, P, Pat, A, I, AI, ao, oo, al⟩ := core
  have hs := List.sizeOf_lt_of_mem hm
  simp [Schema.propertiesOf] at h
  subst h
  simp at hs ⊢
  omega

theorem walkApplicatorList_mem
    (rec : Schema → ConfigPropertyPath → Except LoadErr (List WEvent)) (kw : String) :
    ∀ (l : List Schema) (path : ConfigPropertyPath) (evs : List WEvent),
      walkApplicatorList rec kw l path = .ok evs →
      ∀ ev ∈ evs, ∃ s ∈ l, ∃ evs', rec s path = .ok evs' ∧ ev ∈ evs' := by
  intro l
  induction l with
  | nil =>
    intro path evs h ev hev
    simp only [walkApplicatorList] at h
    cases h
    simp at hev
  | cons s rest ih =>
    intro path evs h ev hev
    cases s with
    | boolSchema b => simp [walkApplicatorList] at h
    | objSchema core =>
      simp only [walkApplicatorList] at h
      cases h1 : rec (.objSchema core) path with
      | error e => rw [h1, exceptBindErr] at h; cases h
      | ok evs1 =>
        rw [h1, exceptBindOk] at h
        cases h2 : walkApplicatorList rec kw rest path with
        | error e => rw [h2, exceptBindErr] at h; cases h
        | ok evs2 =>
          rw [h2, exceptBindOk] at h
          cases h
          rcases List.mem_append.mp hev with hm | hm
          · exact ⟨.objSchema core, by simp, evs1, h1, hm⟩
          · obtain ⟨s', hs', evs', hrec, hm'⟩ := ih path evs2 h2 ev hm
            exact ⟨s', by simp [hs'], evs', hrec, hm'⟩

theorem walkPropsList_mem
    (rec : Schema → ConfigPropertyPath → Except LoadErr (List WEvent)) :
    ∀ (props : List (String × Schema)) (path : ConfigPropertyPath) (evs : List WEvent),
      walkPropsList rec props path = .ok evs →
      ∀ ev ∈ evs, ∃ n s, (n, s) ∈ props ∧ ∃ evs',
        rec s (path ++ [{ value := n, named := true }]) = .ok evs' ∧ ev ∈ evs' := by
  intro props
  induction props with
  | nil =>
    intro path evs h ev hev
    simp only [walkPropsList] at h
    cases h
    simp at hev
  | cons p rest ih =>
    intro path evs h ev hev
    obtain ⟨n, s⟩ := p
    cases s with
    | boolSchema b => simp [walkPropsList] at h
    | objSchema core =>
      simp only [walkPropsList] at h
      cases h1 : rec (.objSchema core) (path ++ [{ value := n, named := true }]) with
      | error e => rw [h1, exceptBindErr] at h; cases h
      | ok evs1 =>
        rw [h1, exceptBindOk] at h
        cases h2 : walkPropsList rec rest path with
        | error e => rw [h2, exceptBindErr] at h; cases h
        | ok evs2 =>
          rw [h2, exceptBindOk] at h
          cases h
          rcases List.mem_append.mp hev with hm | hm
          · exact ⟨n, .objSchema core, by simp, evs1, h1, hm⟩
          · obtain ⟨n', s', hs', evs', hrec, hm'⟩ := ih path evs2 h2 ev hm
            exact ⟨n', s', by simp [hs'], evs', hrec, hm'⟩

theorem patternEventsList_shape :
    ∀ (pats : List (String × Schema)) (path : ConfigPropertyPath) (evs : List WEvent),
      patternEventsList pats path = .ok evs →
      ∀ ev ∈ evs, ∃ pat s, ev = .vp pat s path := by
  intro pats
  induction pats with
  | nil =>
    intro path evs h ev hev
    simp only [patternEventsList] at h
    cases h
    simp at hev
  | cons p rest ih =>
    intro path evs h ev hev
    obtain ⟨pat, s⟩ := p
    cases s with
    | boolSchema b => simp [patternEventsList] at h
    | objSchema core =>
      simp only [patternEventsList] at h
      cases h2 : patternEventsList rest path with
      | error e => rw [h2, exceptBindErr] at h; cases h
      | ok evs2 =>
        rw [h2, exceptBindOk] at h
        injection h with heq
        subst heq
        rcases List.mem_cons.mp hev with hev | hm
        · exact ⟨pat, .objSchema core, hev⟩
        · exact ih path evs2 h2 ev hm

theorem additionalEvent_shape (schema : Schema) (path : ConfigPropertyPath) :
    ∀ ev ∈ additionalEvent schema path, ∃ s, ev = .va s path := by
  intro ev hev
  unfold additionalEvent at hev
  rcases h : schema.additionalPropertiesOf with _ | s
  · rw [h] at hev; simp at hev
  · cases s with
    | boolSchema b => rw [h] at hev; simp at hev
    | objSchema core =>
      rw [h] at hev
      simp at hev
      exact ⟨.objSchema core, by rw [hev]⟩

theorem walkTrace_vs_size :
    ∀ (f : Nat) (S : Schema) (path : ConfigPropertyPath) (evs : List WEvent),
      walkTrace f S path = .ok evs →
      ∀ S' p', WEvent.vs S' p' ∈ evs → sizeOf S' ≤ sizeOf S := by
  intro f
  induction f with
  | zero => intro S path evs h; cases h
  | succ f ih =>
    intro S path evs h S' p' hev
    rw [walkTrace] at h
    rcases hao : S.anyOfOf with _ | l
    case some =>
      rw [hao] at h
      obtain ⟨s, hsl, evs', hrec, hm⟩ := walkApplicatorList_mem _ _ _ _ _ h _ hev
      have hle := ih s path evs' hrec S' p' hm
      cases S with
      | boolSchema b => simp [Schema.anyOfOf] at hao
      | objSchema core =>
        exact le_of_lt (lt_of_le_of_lt hle (sizeOf_mem_applicator (Or.inl hao) hsl))
    case none =>
    rw [hao] at h
    rcases hoo : S.oneOfOf with _ | l
    case some =>
      rw [hoo] at h
      obtain ⟨s, hsl, evs', hrec, hm⟩ := walkApplicatorList_mem _ _ _ _ _ h _ hev
      have hle := ih s path evs' hrec S' p' hm
      cases S with
      | boolSchema b => simp [Schema.oneOfOf] at hoo
      | objSchema core =>
        exact le_of_lt (lt_of_le_of_lt hle (sizeOf_mem_applicator (Or.inr (Or.inl hoo)) hsl))
    case none =>
    rw [hoo] at h
    rcases hal : S.allOfOf with _ | l
    case some =>
      rw [hal] at h
      obtain ⟨s, hsl, evs', hrec, hm⟩ := walkApplicatorList_mem _ _ _ _ _ h _ hev
      have hle := ih s path evs' hrec S' p' hm
      cases S with
      | boolSchema b => simp [Schema.allOfOf] at hal
      | objSchema core =>
        exact le_of_lt (lt_of_le_of_lt hle (sizeOf_mem_applicator (Or.inr (Or.inr hal)) hsl))
    case none =>
    rw [hal] at h
    cases h1 : walkPropsList (walkTrace f) (S.propertiesOf.getD []) path with
    | error e => rw [h1, exceptBindErr] at h; cases h
    | ok pe =>
      rw [h1, exceptBindOk] at h
      cases h2 : patternEventsList (S.patternPropertiesOf.getD []) path with
      | error e => rw [h2, exceptBindErr] at h; cases h
      | ok pate =>
        rw [h2, exceptBindOk] at h
        injection h with heq
        subst heq
        rcases List.mem_cons.mp hev with hev | hm
        · cases hev; exact le_refl _
        rcases List.mem_append.mp hm with hm' | hm'
        rcases List.mem_append.mp hm' with hm2 | hm2
        · obtain ⟨n, s, hmem, evs', hrec, hmm⟩ := walkPropsList_mem _ _ _ _ h1 _ hm2
          have hle := ih s _ evs' hrec S' p' hmm
          rcases hp : S.propertiesOf with _ | props
          · rw [hp] at hmem; simp at hmem
          · rw [hp] at hmem
            cases S with
            | boolSchema b => simp [Schema.propertiesOf] at hp
            | objSchema core =>
              simp only [Option.getD] at hmem
              exact le_of_lt (lt_of_le_of_lt hle (sizeOf_mem_properties hp hmem))
        · obtain ⟨pat, s, hshape⟩ := patternEventsList_shape _ _ _ h2 _ hm2
          cases hshape
        · obtain ⟨s, hshape⟩ := additionalEvent_shape S path _ hm'
          cases hshape

/-- C2: walkConfigProperties honours the applicator keywords anyOf, oneOf,
allOf in that fixed order; when one is present it walks each element schema
against the same path and performs no further processing of the node (no
visitSchema for it, properties and pattern and additional properties
ignored), and a boolean element in the applicator list is an
UnsupportedSchema error. -/
theorem c2_applicator_order_short_circuit :
    (∀ (f : Nat) t t' P P' Pat Pat' A A' I I' AI AI' (l : List Schema) o o' a a'
        (path : ConfigPropertyPath),
      walkTrace (f + 1) (.objSchema (.mk t P Pat A I AI (some l) o a)) path =
      walkTrace (f + 1) (.objSchema (.mk t' P' Pat' A' I' AI' (some l) o' a')) path) ∧
    (∀ (f : Nat) t t' P P' Pat Pat' A A' I I' AI AI' (l : List Schema) a a'
        (path : ConfigPropertyPath),
      walkTrace (f + 1) (.objSchema (.mk t P Pat A I AI none (some l) a)) path =
      walkTrace (f + 1) (.objSchema (.mk t' P' Pat' A' I' AI' none (some l) a')) path) ∧
    (∀ (f : Nat) t t' P P' Pat Pat' A A' I I' AI AI' (l : List Schema)
        (path : ConfigPropertyPath),
      walkTrace (f + 1) (.objSchema (.mk t P Pat A I AI none none (some l))) path =
      walkTrace (f + 1) (.objSchema (.mk t' P' Pat' A' I' AI' none none (some l))) path) ∧
    (∀ (f : Nat) t P Pat A I AI (l : List Schema) o a (path : ConfigPropertyPath) evs,
      walkTrace (f + 1) (.objSchema (.mk t P Pat A I AI (some l) o a)) path = .ok evs →
      ∃ parts : List (List WEvent), parts.length = l.length ∧ evs = parts.flatten ∧
        ∀ i (h : i < l.length) (h2 : i < parts.length),
          walkTrace f (l.get ⟨i, h⟩) path = .ok (parts.get ⟨i, h2⟩)) ∧
    (∀ (f : Nat) t P Pat A I AI (l : List Schema) o a (path : ConfigPropertyPath) evs,
      walkTrace (f + 1) (.objSchema (.mk t P Pat A I AI (some l) o a)) path = .ok evs →
      ∀ p', WEvent.vs (.objSchema (.mk t P Pat A I AI (some l) o a)) p' ∉ evs) ∧
    (∀ (f : Nat) t P Pat A I AI (l1 : List Schema) (b : Bool) (l2 : List Schema) o a
        (path : ConfigPropertyPath),
      (∀ s ∈ l1, ∃ evs', walkTrace f s path = .ok evs') →
      ∃ msg, walkTrace (f + 1)
        (.objSchema (.mk t P Pat A I AI (some (l1 ++ .boolSchema b :: l2)) o a)) path =
        .error (.unsupportedSchema msg)) := by
  refine ⟨?_, ?_, ?_, ?_, ?_, ?_⟩
  · intro f t t' P P' Pat Pat' A A' I I' AI AI' l o o' a a' path
    rfl
  · intro f t t' P P' Pat Pat' A A' I I' AI AI' l a a' path
    rfl
  · intro f t t' P P' Pat Pat' A A' I I' AI AI' l path
    rfl
  · intro f t P Pat A I AI l o a path evs h
    exact walkApplicatorList_join f "anyOf" l path evs h
  · intro f t P Pat A I AI l o a path evs h p' hmem
    obtain ⟨s, hsl, evs', hrec, hm⟩ := walkApplicatorList_mem _ _ _ _ _ h _ hmem
    have hle := walkTrace_vs_size f s path evs' hrec _ p' hm
    have hlt : sizeOf s < sizeOf (Schema.objSchema (.mk t P Pat A I AI (some l) o a)) :=
      sizeOf_mem_applicator (Or.inl rfl) hsl
    omega
  · intro f t P Pat A I AI l1 b l2 o a path hok
    have : ∀ (l1 : List Schema), (∀ s ∈ l1, ∃ evs', walkTrace f s path = .ok evs') →
        ∃ msg, walkApplicatorList (walkTrace f) "anyOf" (l1 ++ .boolSchema b :: l2) path =
          .error (.unsupportedSchema msg) := by
      intro l1
      induction l1 with
      | nil =>
        intro _
        exact ⟨"Boolean anyOf keyword element values are not supported", rfl⟩
      | cons s rest ih =>
        intro hall
        cases s with
        | boolSchema b' =>
          exact ⟨"Boolean anyOf keyword element values are not supported", rfl⟩
        | objSchema core =>
          obtain ⟨evs', hrec⟩ := hall (Schema.objSchema core) (List.mem_cons_self _ _)
          obtain ⟨msg, hmsg⟩ := ih (fun s hs => hall s (List.mem_cons_of_mem _ hs))
          refine ⟨msg, ?_⟩
          show walkApplicatorList (walkTrace f) "anyOf"
            ((Schema.objSchema core) :: (rest ++ .boolSchema b :: l2)) path = _
          simp only [walkApplicatorList]
          rw [hrec, exceptBindOk, hmsg, exceptBindErr]
    obtain ⟨msg, hmsg⟩ := this l1 hok
    exact ⟨msg, hmsg⟩

theorem csvElemsParse_ok
    (rec : String → Schema → Except LoadErr (Option JSONValue))
    (iv : ItemsVal) (ai : Option Schema) :
    ∀ (parts : List String) (i : Nat) (vs : List (Option JSONValue)),
      csvElemsParse rec iv ai parts i = .ok vs →
      vs.length = parts.length ∧
        ∀ j (h : j < parts.length) (h2 : j < vs.length),
          csvElemParse rec iv ai (parts.get ⟨j, h⟩) (i + j) = .ok (vs.get ⟨j, h2⟩) := by
  intro parts
  induction parts with
  | nil =>
    intro i vs h
    simp only [csvElemsParse] at h
    cases h
    exact ⟨rfl, fun j h => absurd h (by simp)⟩
  | cons p rest ih =>
    intro i vs h
    simp only [csvElemsParse] at h
    cases h1 : csvElemParse rec iv ai p i with
    | error e => rw [h1, exceptBindErr] at h; cases h
    | ok v =>
      rw [h1, exceptBindOk] at h
      cases h2 : csvElemsParse rec iv ai rest (i + 1) with
      | error e => rw [h2, exceptBindErr] at h; cases h
      | ok vs' =>
        rw [h2, exceptBindOk] at h
        cases h
        obtain ⟨hlen, hget⟩ := ih (i + 1) vs' h2
        refine ⟨by simp [hlen], ?_⟩
        intro j hj hj2
        cases j with
        | zero => simpa using h1
        | succ k =>
          have := hget k (by simpa using hj) (by simpa using hj2)
          simp only [List.get]
          have harith : i + 1 + k = i + (k + 1) := by omega
          rw [harith] at this
          exact this

theorem allDefined_spec {α : Type} :
    ∀ (vs : List (Option α)) (values : List α),
      allDefined vs = some values → vs = values.map some := by
  intro vs
  induction vs with
  | nil => intro values h; cases h; rfl
  | cons v rest ih =>
    intro values h
    cases v with
    | none => cases h
    | some x =>
      rw [allDefined] at h
      cases h2 : allDefined rest with
      | none => rw [h2] at h; cases h
      | some values' =>
        rw [h2] at h
        injection h with h
        subst h
        simp [ih values' h2]

theorem parseCSVArray_eq (f : Nat) (v : String) (schema : Schema) (iv : ItemsVal)
    (hit : schema.itemsOf = some iv) :
    parseCSVArray f v schema =
      (csvElemsParse (fun p s => parseEnvVarValue f p s) iv
        schema.additionalItemsOf (jsSplitComma v) 0) >>= (fun vs =>
          match allDefined vs with
          | none => Except.ok none
          | some values => Except.ok (some (.arr values))) := by
  unfold parseCSVArray parseCSVArrayWith
  rw [hit]

/-- C6: an array-typed parse first tries JSON; only a JSON array is
accepted directly; otherwise the value splits on commas and element i parses
against items[i] with additionalItems as fallback once an items list is
exhausted, or against the single items schema; no items schema means
undefined, and one undefined element makes the whole result undefined, never
a partially converted array. -/
theorem c6_array_json_then_csv :
    (∀ (f : Nat) (v : String) (schema : Schema) (xs : List JSONValue),
      schema.typeOf = some (.single "array") → jsonParse v = some (.arr xs) →
      parseEnvVarValue (f + 1) v schema = .ok (some (.arr xs))) ∧
    (∀ (f : Nat) (v : String) (schema : Schema),
      schema.typeOf = some (.single "array") →
      (∀ xs, jsonParse v ≠ some (.arr xs)) →
      parseEnvVarValue (f + 1) v schema = parseCSVArray f v schema) ∧
    (∀ (f : Nat) (v : String) (schema : Schema),
      schema.itemsOf = none → parseCSVArray f v schema = .ok none) ∧
    (∀ (f : Nat) (v : String) (schema : Schema) (iv : ItemsVal) (res : JSONValue),
      schema.itemsOf = some iv → parseCSVArray f v schema = .ok (some res) →
      ∃ vals : List JSONValue, res = .arr vals ∧
        vals.length = (jsSplitComma v).length ∧
        ∀ j (h : j < (jsSplitComma v).length) (h2 : j < vals.length),
          csvElemParse (fun p s => parseEnvVarValue f p s) iv schema.additionalItemsOf
            ((jsSplitComma v).get ⟨j, h⟩) j = .ok (some (vals.get ⟨j, h2⟩))) ∧
    (∀ (f : Nat) (v : String) (schema : Schema) (iv : ItemsVal)
        (r : Option JSONValue) (j : Nat) (h : j < (jsSplitComma v).length),
      schema.itemsOf = some iv → parseCSVArray f v schema = .ok r →
      csvElemParse (fun p s => parseEnvVarValue f p s) iv schema.additionalItemsOf
        ((jsSplitComma v).get ⟨j, h⟩) j = .ok none →
      r = none) ∧
    (∀ (rec : String → Schema → Except LoadErr (Option JSONValue))
        (ss : List Schema) (ai : Option Schema) (part : String) (i : Nat) c,
      ss.get? i = some (.objSchema c) →
      csvElemParse rec (.many ss) ai part i = rec part (.objSchema c)) ∧
    (∀ rec (ss : List Schema) (part : String) (i : Nat) c,
      ss.get? i = none →
      csvElemParse rec (.many ss) (some (.objSchema c)) part i = rec part (.objSchema c)) ∧
    (∀ rec (ss : List Schema) (part : String) (i : Nat),
      ss.get? i = none → csvElemParse rec (.many ss) none part i = .ok none) ∧
    (∀ rec (ai : Option Schema) (part : String) (i : Nat) c,
      csvElemParse rec (.one (.objSchema c)) ai part i = rec part (.objSchema c)) ∧
    (∀ rec (ai : Option Schema) (part : String) (i : Nat) (b : Bool),
      csvElemParse rec (.one (.boolSchema b)) ai part i =
        .error (.unsupportedSchema "Boolean items keyword values are not supported")) := by
  have harr : ∀ (f : Nat) (v : String) (schema : Schema),
      schema.typeOf = some (.single "array") →
      parseEnvVarValue (f + 1) v schema =
        parseArrayWith (fun p s => parseEnvVarValue f p s) v schema := by
    intro f v schema ht
    rw [parseEnvVarValue, ht]
    rfl
  refine ⟨?_, ?_, ?_, ?_, ?_, ?_, ?_, ?_, ?_, ?_⟩
  · intro f v schema xs ht hj
    rw [harr f v schema ht]
    unfold parseArrayWith
    rw [hj]
  · intro f v schema ht hne
    rw [harr f v schema ht]
    unfold parseArrayWith parseCSVArray
    rcases hj : jsonParse v with _ | val
    · rfl
    · cases val with
      | arr xs => exact absurd hj (hne xs)
      | null => rfl
      | bool b => rfl
      | num q => rfl
      | str s => rfl
      | obj kvs => rfl
  · intro f v schema hit
    unfold parseCSVArray parseCSVArrayWith
    rw [hit]
  · intro f v schema iv res hit h
    rw [parseCSVArray_eq f v schema iv hit] at h
    cases h1 : csvElemsParse (fun p s => parseEnvVarValue f p s) iv
        schema.additionalItemsOf (jsSplitComma v) 0 with
    | error e => rw [h1, exceptBindErr] at h; cases h
    | ok vs =>
      rw [h1, exceptBindOk] at h
      cases h2 : allDefined vs with
      | none => rw [h2] at h; cases h
      | some values =>
        rw [h2] at h
        cases h
        obtain ⟨hlen, hget⟩ := csvElemsParse_ok _ _ _ _ _ _ h1
        have hvs := allDefined_spec vs values h2
        refine ⟨values, rfl, ?_, ?_⟩
        · rw [← hlen, hvs, List.length_map]
        · intro j hj hj2
          have h3 := hget j hj (by rw [hvs, List.length_map]; exact hj2)
          rw [Nat.zero_add] at h3
          have : vs.get ⟨j, by rw [hvs, List.length_map]; exact hj2⟩ =
              some (values.get ⟨j, hj2⟩) := by
            simp [hvs]
          rw [this] at h3
          exact h3
  · intro f v schema iv r j hj hit h helem
    rw [parseCSVArray_eq f v schema iv hit] at h
    cases h1 : csvElemsParse (fun p s => parseEnvVarValue f p s) iv
        schema.additionalItemsOf (jsSplitComma v) 0 with
    | error e => rw [h1, exceptBindErr] at h; cases h
    | ok vs =>
      rw [h1, exceptBindOk] at h
      obtain ⟨hlen, hget⟩ := csvElemsParse_ok _ _ _ _ _ _ h1
      have h3 := hget j hj (by omega)
      rw [Nat.zero_add, helem] at h3
      have hnone : vs.get ⟨j, by omega⟩ = none := by
        cases h3'' : vs.get ⟨j, by omega⟩ with
        | none => rfl
        | some x => rw [h3''] at h3; cases h3
      cases h2 : allDefined vs with
      | none => rw [h2] at h; cases h; rfl
      | some values =>
        have hvs := allDefined_spec vs values h2
        have hmem : (none : Option JSONValue) ∈ vs := by
          rw [← hnone]
          exact List.get_mem vs j _
        rw [hvs] at hmem
        obtain ⟨x, _, hx⟩ := List.mem_map.mp hmem
        cases hx
  · intro rec ss ai part i c hget
    simp only [csvElemParse]
    rw [hget]
    rfl
  · intro rec ss part i c hget
    simp only [csvElemParse]
    rw [hget]
    rfl
  · intro rec ss part i hget
    simp only [csvElemParse]
    rw [hget]
    rfl
  · intro rec ai part i c
    rfl
  · intro rec ai part i b
    rfl

/-- C10: loadFromEnv fills a missing case or separator by mutating the
caller-supplied options object in place (the object the caller holds
afterwards equals the defaulted object and differs from its original
value), while overrideArrayValues leaves the options object of the caller
unchanged and applies its different defaults to a copy. -/
theorem c10_options_mutation :
    (∀ o : EnvVarNamingOptions, (overrideArrayValuesInitOptions o).1 = o) ∧
    (∀ o : EnvVarNamingOptions, (overrideArrayValuesInitOptions o).2 = initialiseOptions o) ∧
    (∀ o : EnvVarNamingOptions, (loadFromEnvInitOptions o).1 = (loadFromEnvInitOptions o).2) ∧
    (∀ o : EnvVarNamingOptions, o.caseKind = none →
      ((loadFromEnvInitOptions o).1).caseKind = some .screamingSnake ∧
      (loadFromEnvInitOptions o).1 ≠ o) ∧
    (∀ o : EnvVarNamingOptions, o.propertySeparator = none →
      ((loadFromEnvInitOptions o).1).propertySeparator = some "_") ∧
    (∀ o : EnvVarNamingOptions, o.caseKind = none →
      (initialiseOptions o).caseKind = some .snake) ∧
    (∀ o : EnvVarNamingOptions, o.propertySeparator = none →
      (initialiseOptions o).propertySeparator = some "__") := by
  refine ⟨fun o => rfl, fun o => rfl, fun o => rfl, ?_, ?_, ?_, ?_⟩
  · intro o h
    constructor
    · simp [loadFromEnvInitOptions, h]
    · intro heq
      have : (loadFromEnvInitOptions o).1.caseKind = o.caseKind := by rw [heq]
      rw [h] at this
      simp [loadFromEnvInitOptions, h] at this
  · intro o h
    simp [loadFromEnvInitOptions, h]
  · intro o h
    simp [initialiseOptions, h]
  · intro o h
    simp [initialiseOptions, h]

theorem joinWith_append_single (sep : String) :
    ∀ (xs : List String) (x : String), xs ≠ [] →
      joinWith sep (xs ++ [x]) = joinWith sep xs ++ sep ++ x := by
  intro xs
  induction xs with
  | nil => intro x h; exact absurd rfl h
  | cons y rest ih =>
    intro x _
    cases rest with
    | nil => rfl
    | cons z rest' =>
      show joinWith sep (y :: ((z :: rest') ++ [x])) = _
      have h1 : joinWith sep (y :: ((z :: rest') ++ [x])) =
          y ++ sep ++ joinWith sep ((z :: rest') ++ [x]) := rfl
      rw [h1, ih x (by simp)]
      have h2 : joinWith sep (y :: z :: rest') = y ++ sep ++ joinWith sep (z :: rest') := rfl
      rw [h2]
      simp [String.append_assoc]

/-- C3: every addressable path with derived name N also recognises the
variable N + separator + FILE (a literal untransformed segment) as a file
fallback; a successfully parsed direct value wins and the FILE variable is
not consulted; an unreadable file or one whose content trims to the empty
string is treated like an absent variable. -/
theorem c3_file_variant_fallback :
    (∀ (ext : ExtEnv) (path : ConfigPropertyPath) (opts : EnvVarNamingOptions),
      path ≠ [] →
      getEnvVarName ext (path ++ [{ value := "FILE", named := false }]) opts =
        getEnvVarName ext path opts ++ joinSeparator opts ++ "FILE") ∧
    (∀ (pf : Nat) (ext : ExtEnv) (env : Env) (schema : Schema)
        (path : ConfigPropertyPath) (st : LState) (opts : EnvVarNamingOptions)
        (raw : String) (v : JSONValue),
      namesLookup st.envVarNames (getEnvVarName ext path opts) = none →
      envGet env (getEnvVarName ext path opts) = some raw →
      parseEnvVarValue pf raw schema = .ok (some v) →
      readFromEnvVars pf ext env schema path st opts = .ok (some v,
        { st with
          envVarNames := st.envVarNames ++ [(getEnvVarName ext path opts, path)],
          events := st.events ++ [.set (getEnvVarName ext path opts) path] })) ∧
    (∀ (pf : Nat) (ext : ExtEnv) (env : Env) (schema : Schema)
        (path : ConfigPropertyPath) (st : LState) (opts : EnvVarNamingOptions) (fp : String),
      namesLookup st.envVarNames
        (getEnvVarName ext (path ++ [{ value := "FILE", named := false }]) opts) = none →
      envGet env
        (getEnvVarName ext (path ++ [{ value := "FILE", named := false }]) opts) = some fp →
      readFromFileVariant ext env
        (getEnvVarName ext (path ++ [{ value := "FILE", named := false }]) opts) = none →
      readFromFileEnvVar pf ext env schema path st opts = .ok (none, st)) ∧
    (∀ (ext : ExtEnv) (env : Env) (n : String) (fp : String),
      envGet env n = some fp →
      (fp = "" → readFromFileVariant ext env n = none) ∧
      (ext.fsRead fp = none → readFromFileVariant ext env n = none) ∧
      (∀ content, ext.fsRead fp = some content → jsTrim content = "" →
        readFromFileVariant ext env n = none)) ∧
    (∀ (pf : Nat) (ext : ExtEnv) (env : Env) (schema : Schema)
        (path : ConfigPropertyPath) (st : LState) (opts : EnvVarNamingOptions),
      namesLookup st.envVarNames (getEnvVarName ext path opts) = none →
      envGet env (getEnvVarName ext path opts) = none →
      readFromEnvVars pf ext env schema path st opts =
        readFromFileEnvVar pf ext env schema path st opts) := by
  refine ⟨?_, ?_, ?_, ?_, ?_⟩
  · intro ext path opts hne
    unfold getEnvVarName
    have hmap : (path ++ ([{ value := "FILE", named := false }] : ConfigPropertyPath)).map
        (fun (it : PathItem) =>
          if it.named then transformPropertyName ext it.value opts else it.value) =
        path.map (fun (it : PathItem) =>
          if it.named then transformPropertyName ext it.value opts else it.value) ++
          ["FILE"] := by
      simp
    rw [hmap, joinWith_append_single _ _ _ (by simpa using hne)]
    rcases opts.optPre with _ | p
    · rfl
    · show (if p = "" then _ else _) = (if p = "" then _ else _) ++ _ ++ _
      split_ifs
      · rfl
      · simp [String.append_assoc]
  · intro pf ext env schema path st opts raw v h1 h2 h3
    unfold readFromEnvVars readFromEnvVar
    rw [h1]
    dsimp only
    rw [h2]
    dsimp only
    rw [h3, exceptBindOk]
    rfl
  · intro pf ext env schema path st opts fp h1 h2 h3
    unfold readFromFileEnvVar
    rw [h1]
    dsimp only
    rw [h2]
    dsimp only
    rw [h3]
  · intro ext env n fp h
    refine ⟨?_, ?_, ?_⟩
    · intro hfp
      unfold readFromFileVariant
      rw [h]
      dsimp only
      rw [if_pos hfp]
    · intro hfs
      unfold readFromFileVariant
      rw [h]
      dsimp only
      split_ifs with he
      · rfl
      · rw [hfs]
    · intro content hfs htrim
      unfold readFromFileVariant
      rw [h]
      dsimp only
      split_ifs with he
      · rfl
      · rw [hfs]
        dsimp only
        rw [if_pos htrim]
  · intro pf ext env schema path st opts h1 h2
    unfold readFromEnvVars readFromEnvVar
    rw [h1]
    dsimp only
    rw [h2]
    dsimp only
    rw [exceptBindOk]

theorem occursAt_zero_iff (hay needle : List Char) :
    OccursAt hay needle 0 ↔ needle.isPrefixOf hay = true := by
  rw [ List.isPrefixOf_iff_prefix]
  constructor
  · rintro ⟨pre, post, heq, hlen⟩
    have : pre = [] := List.eq_nil_of_length_eq_zero hlen
    subst this
    exact ⟨post, by simpa using heq.symm⟩
  · rintro ⟨post, heq⟩
    exact ⟨[], post, by simpa using heq.symm, rfl⟩

theorem strFindAux_spec :
    ∀ (hay needle : List Char) (i : Nat),
      strFindAux hay needle = some i ↔ FirstOccursAt hay needle i := by
  intro hay
  induction hay with
  | nil =>
    intro needle i
    rw [strFindAux]
    split_ifs with hp
    · constructor
      · rintro ⟨rfl⟩
        exact ⟨(occursAt_zero_iff [] needle).mpr hp, fun j _ => Nat.zero_le j⟩
      · rintro ⟨⟨pre, post, heq, hlen⟩, hmin⟩
        have h0 := heq.symm
        rw [List.append_assoc, List.append_eq_nil] at h0
        simp [← hlen, h0.1]
    · constructor
      · intro h; cases h
      · rintro ⟨⟨pre, post, heq, hlen⟩, hmin⟩
        have h0 := heq.symm
        rw [List.append_assoc, List.append_eq_nil] at h0
        have h2 := (List.append_eq_nil.mp h0.2).1
        exact absurd (( List.isPrefixOf_iff_prefix).mpr ⟨[], by simp [h2]⟩) hp
  | cons c t ih =>
    intro needle i
    rw [strFindAux]
    split_ifs with hp
    · constructor
      · rintro ⟨rfl⟩
        exact ⟨(occursAt_zero_iff (c :: t) needle).mpr hp, fun j _ => Nat.zero_le j⟩
      · rintro ⟨hocc, hmin⟩
        have h0 := hmin 0 ((occursAt_zero_iff (c :: t) needle).mpr hp)
        simp [Nat.le_zero] at h0
        simp [h0]
    · constructor
      · intro h
        cases hrec : strFindAux t needle with
        | none => rw [hrec] at h; cases h
        | some j =>
          rw [hrec] at h
          simp at h
          obtain ⟨hocc, hmin⟩ := (ih needle j).mp hrec
          obtain ⟨pre, post, heq, hlen⟩ := hocc
          constructor
          · exact ⟨c :: pre, post, by simp [heq], by simp [hlen, ← h]⟩
          · intro k hk
            obtain ⟨pre', post', heq', hlen'⟩ := hk
            cases pre' with
            | nil =>
              exact absurd ((occursAt_zero_iff (c :: t) needle).mpr
                (by exact ( List.isPrefixOf_iff_prefix).mpr ⟨post', by simpa using heq'.symm⟩))
                (fun hcon => hp ((occursAt_zero_iff (c :: t) needle).mp hcon))
            | cons c' pre'' =>
              have hct : c = c' ∧ t = pre'' ++ (needle ++ post') := by simpa using heq'
              have heqt : t = pre'' ++ needle ++ post' := by
                rw [hct.2, List.append_assoc]
              have := hmin pre''.length ⟨pre'', post', heqt, rfl⟩
              simp at hlen'
              omega
      · rintro ⟨⟨pre, post, heq, hlen⟩, hmin⟩
        cases pre with
        | nil =>
          exact absurd (( List.isPrefixOf_iff_prefix).mpr ⟨post, by simpa using heq.symm⟩) hp
        | cons c' pre' =>
          have hct : c = c' ∧ t = pre' ++ (needle ++ post) := by simpa using heq
          have heqt : t = pre' ++ needle ++ post := by
            rw [hct.2, List.append_assoc]
          have hocc' : OccursAt t needle pre'.length := ⟨pre', post, heqt, rfl⟩
          have hmin' : ∀ j, OccursAt t needle j → pre'.length ≤ j := by
            intro j hj
            obtain ⟨prej, postj, heqj, hlenj⟩ := hj
            have := hmin (j + 1) ⟨c :: prej, postj, by simp [heqj], by simp [hlenj]⟩
            simp at hlen
            omega
          have := (ih needle pre'.length).mpr ⟨hocc', hmin'⟩
          rw [this]
          simp at hlen
          simp [← hlen]

theorem strFindAux_some_of_occurs :
    ∀ (hay needle : List Char) (i : Nat), OccursAt hay needle i →
      ∃ j, strFindAux hay needle = some j := by
  intro hay
  induction hay with
  | nil =>
    intro needle i h
    obtain ⟨pre, post, heq, hlen⟩ := h
    have h0 : ([] : List Char).length = (pre ++ needle ++ post).length := by rw [heq]
    simp at h0
    have hn : needle = [] := List.eq_nil_of_length_eq_zero (by omega)
    refine ⟨0, ?_⟩
    rw [strFindAux]
    subst hn
    simp [List.isPrefixOf]
  | cons c t ih =>
    intro needle i h
    rw [strFindAux]
    split_ifs with hp
    · exact ⟨0, rfl⟩
    · obtain ⟨pre, post, heq, hlen⟩ := h
      cases pre with
      | nil =>
        exact absurd (( List.isPrefixOf_iff_prefix).mpr ⟨post, by simpa using heq.symm⟩) hp
      | cons c' pre' =>
        have hct : c = c' ∧ t = pre' ++ (needle ++ post) := by simpa using heq
        obtain ⟨j, hj⟩ := ih needle pre'.length
          ⟨pre', post, by rw [hct.2, List.append_assoc], rfl⟩
        exact ⟨j + 1, by rw [hj]; rfl⟩

theorem propertySuffixMatches_spec (opts : EnvVarNamingOptions) (c ps : String) :
    propertySuffixMatches opts c ps = true ↔
      ∃ i, FirstOccursAt c.data ps.data i ∧ i ≠ 0 ∧
        (i + strLen ps = strLen c ∨
          jsStartsWith (strDrop c (i + strLen ps)) (sepFallback opts) = true) := by
  unfold propertySuffixMatches jsIndexOf
  cases hfind : strFindAux c.data ps.data with
  | none =>
    simp only []
    constructor
    · intro h; cases h
    · rintro ⟨i, hfo, _, _⟩
      obtain ⟨j, hj⟩ := strFindAux_some_of_occurs c.data ps.data i hfo.1
      rw [hfind] at hj
      cases hj
  | some i =>
    have hfo := (strFindAux_spec c.data ps.data i).mp hfind
    simp only []
    split_ifs with h0 hcond
    · constructor
      · intro h; cases h
      · rintro ⟨i', hfo', hne, _⟩
        have : strFindAux c.data ps.data = some i' := (strFindAux_spec _ _ _).mpr hfo'
        rw [hfind] at this
        cases this
        exact hne h0
    · constructor
      · intro h; cases h
      · rintro ⟨i', hfo', hne, hor⟩
        have : strFindAux c.data ps.data = some i' := (strFindAux_spec _ _ _).mpr hfo'
        rw [hfind] at this
        cases this
        rcases hor with hor | hor
        · exact hcond.1 hor
        · exact hcond.2 hor
    · constructor
      · intro _
        refine ⟨i, hfo, h0, ?_⟩
        rcases Decidable.em (i + strLen ps = strLen c) with he | he
        · exact Or.inl he
        · rcases Decidable.em
            (jsStartsWith (strDrop c (i + strLen ps)) (sepFallback opts) = true) with hs | hs
          · exact Or.inr hs
          · exact absurd ⟨he, fun hc => hs hc⟩ hcond
      · intro _; rfl

theorem firstOccursAt_unique {hay needle : List Char} {i j : Nat}
    (h1 : FirstOccursAt hay needle i) (h2 : FirstOccursAt hay needle j) : i = j :=
  Nat.le_antisymm (h1.2 j h2.1) (h2.2 i h1.1)

/-- C5: during discovery against an object-typed sub-schema the discovered
property name for a candidate suffix is the prefix of the candidate before
the first occurrence of the first matching child-property name-suffix, where
matching demands a positive position and that the occurrence end the
candidate or be followed by the property separator; a candidate with no
matching suffix is used whole. -/
theorem c5_discovery_name_extraction :
    (∀ (f : Nat) (ext : ExtEnv) (P : List (String × Schema)) Pat A I AI
        (cands : List String) (parentPath : ConfigPropertyPath)
        (opts : EnvVarNamingOptions),
      discoverUnnamedProperties (f + 1) ext
        (.objSchema (.mk (some (.single "object")) (some P) Pat A I AI none none none))
        cands parentPath opts =
      .ok (cands.map fun c =>
        { path := parentPath ++ [{ value := extractedPropertyName opts
                                     (propertyNameSuffixesOf ext
                                       (.objSchema (.mk (some (.single "object")) (some P)
                                         Pat A I AI none none none))
                                       opts) c,
                                   named := false }],
          schema := .objSchema (.mk (some (.single "object")) (some P) Pat A I AI
                      none none none) })) ∧
    (∀ (opts : EnvVarNamingOptions) (suffixes : List String) (c : String),
      (∃ l1 ps l2, suffixes = l1 ++ ps :: l2 ∧
        (∀ ps' ∈ l1, propertySuffixMatches opts c ps' = false) ∧
        propertySuffixMatches opts c ps = true ∧
        ∀ i, FirstOccursAt c.data ps.data i →
          extractedPropertyName opts suffixes c = strTake c i) ∨
      ((∀ ps ∈ suffixes, propertySuffixMatches opts c ps = false) ∧
        extractedPropertyName opts suffixes c = c)) ∧
    (∀ (opts : EnvVarNamingOptions) (c ps : String),
      propertySuffixMatches opts c ps = true ↔
        ∃ i, FirstOccursAt c.data ps.data i ∧ i ≠ 0 ∧
          (i + strLen ps = strLen c ∨
            jsStartsWith (strDrop c (i + strLen ps)) (sepFallback opts) = true)) := by
  refine ⟨?_, ?_, propertySuffixMatches_spec⟩
  · intro f ext P Pat A I AI cands parentPath opts
    rfl
  · intro opts suffixes c
    cases hf : suffixes.find? (propertySuffixMatches opts c) with
    | some matched =>
      left
      obtain ⟨hp, l1, l2, heq, hfail⟩ := List.find?_eq_some.mp hf
      refine ⟨l1, matched, l2, heq, ?_, hp, ?_⟩
      · intro ps' hm
        have := hfail ps' hm
        simpa using this
      · intro i hfo
        obtain ⟨i0, hfo0, _, _⟩ := (propertySuffixMatches_spec opts c matched).mp hp
        have hidx : jsIndexOf c matched = some i0 :=
          (strFindAux_spec c.data matched.data i0).mpr hfo0
        have : i = i0 := firstOccursAt_unique hfo hfo0
        subst this
        unfold extractedPropertyName
        rw [hf]
        dsimp only
        rw [hidx]
        rfl
    | none =>
      right
      constructor
      · intro ps hm
        have := List.find?_eq_none.mp hf ps hm
        simpa using this
      · unfold extractedPropertyName
        rw [hf]

/-- C5 counterexample: the candidate metadata__lengthsuffix contains the
child suffix __length not at its very start, yet discovery keeps the whole
candidate as the property name, because the occurrence neither ends the
candidate nor is followed by the separator. -/
theorem c5_discovery_name_extraction_cx :
    discoverUnnamedProperties 2 (witnessExt fun _ => none) schemaWithLength
      ["metadata__lengthsuffix"] [] DEFAULT_OPTIONS =
      .ok [{ path := [{ value := "metadata__lengthsuffix", named := false }],
             schema := schemaWithLength }] ∧
    ("metadata__lengthsuffix" : String).data =
      ("metadata" : String).data ++ ("__length" : String).data ++
        ("suffix" : String).data ∧
    propertyNameSuffixesOf (witnessExt fun _ => none) schemaWithLength
      DEFAULT_OPTIONS = ["__length"] ∧
    ("metadata" : String).data.length = 8 ∧
    ("metadata__lengthsuffix" : String) ≠ "metadata" := by
  refine ⟨rfl, by decide, rfl, by decide, by decide⟩

theorem splitCommaChars_ne_nil : ∀ cs : List Char, splitCommaChars cs ≠ [] := by
  intro cs
  induction cs with
  | nil => simp [splitCommaChars]
  | cons c r ih =>
    rw [splitCommaChars]
    cases h : splitCommaChars r with
    | nil => exact absurd h ih
    | cons hh tt => split_ifs <;> simp

/-- C9: a boolean value where properties, patternProperties or an in-place
applicator element expects a schema object is an UnsupportedSchema error
propagated to the caller (also through loadFromEnv), as is a singular
boolean items schema on the CSV path; but a boolean element of an items
list, and a boolean additionalItems fallback, make the element undefined
without an error. -/
theorem c9_boolean_schema_errors :
    (∀ (f : Nat) t Pat A I AI (n : String) (b : Bool) (rest : List (String × Schema))
        (path : ConfigPropertyPath),
      walkTrace (f + 1) (.objSchema (.mk t (some ((n, .boolSchema b) :: rest)) Pat A I AI
        none none none)) path =
      .error (.unsupportedSchema
        "Boolean properties keyword object properties are not supported")) ∧
    (∀ (f : Nat) t (props : List (String × Schema)) A I AI (pat : String) (b : Bool)
        (rest : List (String × Schema)) (path : ConfigPropertyPath) pe,
      walkPropsList (walkTrace f) props path = .ok pe →
      walkTrace (f + 1) (.objSchema (.mk t (some props)
        (some ((pat, .boolSchema b) :: rest)) A I AI none none none)) path =
      .error (.unsupportedSchema
        "Boolean patternProperties keyword object properties are not supported")) ∧
    (∀ (f : Nat) t P Pat A I AI (b : Bool) (l2 : List Schema)
        (path : ConfigPropertyPath),
      walkTrace (f + 1) (.objSchema (.mk t P Pat A I AI
        (some (.boolSchema b :: l2)) none none)) path =
      .error (.unsupportedSchema
        "Boolean anyOf keyword element values are not supported")) ∧
    (∀ (f : Nat) t P Pat A I AI (b : Bool) (l2 : List Schema)
        (path : ConfigPropertyPath),
      walkTrace (f + 1) (.objSchema (.mk t P Pat A I AI none
        (some (.boolSchema b :: l2)) none)) path =
      .error (.unsupportedSchema
        "Boolean oneOf keyword element values are not supported")) ∧
    (∀ (f : Nat) t P Pat A I AI (b : Bool) (l2 : List Schema)
        (path : ConfigPropertyPath),
      walkTrace (f + 1) (.objSchema (.mk t P Pat A I AI none none
        (some (.boolSchema b :: l2)))) path =
      .error (.unsupportedSchema
        "Boolean allOf keyword element values are not supported")) ∧
    (∀ (f : Nat) (v : String) P Pat A AI (b : Bool),
      (∀ xs, jsonParse v ≠ some (.arr xs)) →
      parseEnvVarValue (f + 1) v (.objSchema (.mk (some (.single "array")) P Pat A
        (some (.one (.boolSchema b))) AI none none none)) =
      .error (.unsupportedSchema "Boolean items keyword values are not supported")) ∧
    (∀ (rec : String → Schema → Except LoadErr (Option JSONValue))
        (ss : List Schema) (ai : Option Schema) (part : String) (i : Nat) (b : Bool),
      ss.get? i = some (.boolSchema b) →
      csvElemParse rec (.many ss) ai part i = .ok none) ∧
    (∀ rec (ss : List Schema) (part : String) (i : Nat) (b : Bool),
      ss.get? i = none →
      csvElemParse rec (.many ss) (some (.boolSchema b)) part i = .ok none) ∧
    (∀ (f : Nat) (ext : ExtEnv) (env : Env) t Pat A I AI (n : String) (b : Bool)
        (rest : List (String × Schema)) (opts : EnvVarNamingOptions),
      loadFromEnv (f + 1) ext env (.objSchema (.mk t (some ((n, .boolSchema b) :: rest))
        Pat A I AI none none none)) opts =
      .error (.unsupportedSchema
        "Boolean properties keyword object properties are not supported")) := by
  refine ⟨fun _ _ _ _ _ _ _ _ _ _ => rfl, ?_, fun _ _ _ _ _ _ _ _ _ _ => rfl,
    fun _ _ _ _ _ _ _ _ _ _ => rfl, fun _ _ _ _ _ _ _ _ _ _ => rfl, ?_, ?_, ?_,
    fun _ _ _ _ _ _ _ _ _ _ _ _ => rfl⟩
  · intro f t props A I AI pat b rest path pe h
    rw [walkTrace]
    show (do
      let pe ← walkPropsList (walkTrace f) props path
      let pate ← patternEventsList ((pat, Schema.boolSchema b) :: rest) path
      Except.ok (WEvent.vs _ path :: pe ++ pate ++ additionalEvent _ path)) = _
    rw [h, exceptBindOk]
    rfl
  · intro f v P Pat A AI b hne
    have harr : parseEnvVarValue (f + 1) v (.objSchema (.mk (some (.single "array")) P Pat A
        (some (.one (.boolSchema b))) AI none none none)) =
        parseArrayWith (fun p s => parseEnvVarValue f p s) v
          (.objSchema (.mk (some (.single "array")) P Pat A
            (some (.one (.boolSchema b))) AI none none none)) := by
      rw [parseEnvVarValue]
      rfl
    rw [harr]
    unfold parseArrayWith
    have hcsv : parseCSVArrayWith (fun p s => parseEnvVarValue f p s) v
        (.objSchema (.mk (some (.single "array")) P Pat A
          (some (.one (.boolSchema b))) AI none none none)) =
        .error (.unsupportedSchema "Boolean items keyword values are not supported") := by
      unfold parseCSVArrayWith
      show (do
        let vs ← csvElemsParse (fun p s => parseEnvVarValue f p s) (.one (.boolSchema b))
          (Schema.additionalItemsOf _) (jsSplitComma v) 0
        match allDefined vs with
        | none => Except.ok none
        | some values => Except.ok (some (JSONValue.arr values))) = _
      unfold jsSplitComma
      cases hs : splitCommaChars v.data with
      | nil => exact absurd hs (splitCommaChars_ne_nil v.data)
      | cons p r =>
        simp only [List.map]
        rw [csvElemsParse]
        show (do
          let v' ← csvElemParse (fun p s => parseEnvVarValue f p s) (.one (.boolSchema b))
            (Schema.additionalItemsOf _) (String.mk p) 0
          let vs ← csvElemsParse (fun p s => parseEnvVarValue f p s) (.one (.boolSchema b))
            (Schema.additionalItemsOf _) (r.map String.mk) 1
          Except.ok (v' :: vs) : Except LoadErr (List (Option JSONValue))) >>= _ = _
        rfl
    rcases hj : jsonParse v with _ | val
    · exact hcsv
    · cases val with
      | arr xs => exact absurd hj (hne xs)
      | null => exact hcsv
      | bool b' => exact hcsv
      | num q => exact hcsv
      | str s => exact hcsv
      | obj kvs => exact hcsv
  · intro rec ss ai part i b h
    unfold csvElemParse
    dsimp only
    rw [h]
    rfl
  · intro rec ss part i b h
    unfold csvElemParse
    dsimp only
    rw [h]
    rfl

theorem setNames_append (l1 l2 : List LEvent) :
    setNames (l1 ++ l2) = setNames l1 ++ setNames l2 := by
  simp [setNames]

theorem eventsSound_append :
    ∀ (l1 : List LEvent) (c : List String) (l2 : List LEvent),
      eventsSound c (l1 ++ l2) ↔ eventsSound c l1 ∧ eventsSound (c ++ setNames l1) l2 := by
  intro l1
  induction l1 with
  | nil => intro c l2; simp [eventsSound, setNames]
  | cons e rest ih =>
    intro c l2
    cases e with
    | set n p =>
      show (n ∉ c ∧ eventsSound (c ++ [n]) (rest ++ l2)) ↔ _
      rw [ih (c ++ [n]) l2]
      constructor
      · rintro ⟨hn, hs, hs2⟩
        refine ⟨⟨hn, hs⟩, ?_⟩
        have : c ++ setNames (LEvent.set n p :: rest) = (c ++ [n]) ++ setNames rest := by
          simp [setNames]
        rw [this]
        exact hs2
      · rintro ⟨⟨hn, hs⟩, hs2⟩
        refine ⟨hn, hs, ?_⟩
        have : (c ++ [n]) ++ setNames rest = c ++ setNames (LEvent.set n p :: rest) := by
          simp [setNames]
        rw [this]
        exact hs2
    | conflict n p =>
      show (n ∈ c ∧ eventsSound c (rest ++ l2)) ↔ _
      rw [ih c l2]
      have : setNames (LEvent.conflict n p :: rest) = setNames rest := by simp [setNames]
      rw [this]
      constructor
      · rintro ⟨hn, hs, hs2⟩
        exact ⟨⟨hn, hs⟩, hs2⟩
      · rintro ⟨⟨hn, hs⟩, hs2⟩
        exact ⟨hn, hs, hs2⟩

theorem sound_set_not_claimed :
    ∀ (evs : List LEvent) (c : List String) (n : String) (p : ConfigPropertyPath),
      eventsSound c evs → LEvent.set n p ∈ evs → n ∉ c := by
  intro evs
  induction evs with
  | nil => intro c n p _ hm; simp at hm
  | cons e rest ih =>
    intro c n p hs hm
    cases e with
    | set n' p' =>
      obtain ⟨hn', hrest⟩ := hs
      rcases List.mem_cons.mp hm with hm | hm
      · injection hm with h1 h2
        subst h1
        exact hn'
      · intro hc
        exact ih (c ++ [n']) n p hrest hm (by simp [hc])
    | conflict n' p' =>
      obtain ⟨hn', hrest⟩ := hs
      rcases List.mem_cons.mp hm with hm | hm
      · simp at hm
      · exact ih c n p hrest hm

theorem setNames_mem :
    ∀ (l : List LEvent) (n : String), n ∈ setNames l → ∃ p, LEvent.set n p ∈ l := by
  intro l
  induction l with
  | nil => intro n h; simp [setNames] at h
  | cons e rest ih =>
    intro n h
    cases e with
    | set n' p' =>
      rw [show setNames (LEvent.set n' p' :: rest) = n' :: setNames rest by simp [setNames]]
        at h
      rcases List.mem_cons.mp h with h | h
      · exact ⟨p', by simp [h]⟩
      · obtain ⟨p, hp⟩ := ih n h
        exact ⟨p, by simp [hp]⟩
    | conflict n' p' =>
      rw [show setNames (LEvent.conflict n' p' :: rest) = setNames rest by simp [setNames]]
        at h
      obtain ⟨p, hp⟩ := ih n h
      exact ⟨p, by simp [hp]⟩

theorem namesLookup_none_iff (m : List (String × ConfigPropertyPath)) (n : String) :
    namesLookup m n = none ↔ n ∉ m.map (·.fst) := by
  unfold namesLookup
  rw [Option.map_eq_none', List.find?_eq_none]
  constructor
  · intro h hm
    obtain ⟨⟨n', p⟩, hmem, heq⟩ := List.mem_map.mp hm
    exact absurd (by simpa using heq) (by simpa using h _ hmem)
  · intro h kv hkv
    intro hbeq
    exact h (List.mem_map.mpr ⟨kv, hkv, by simpa using hbeq⟩)

theorem ledgerOK_append_set {st : LState} (h : ledgerOK st) (n : String)
    (p : ConfigPropertyPath) (hn : namesLookup st.envVarNames n = none) :
    ledgerOK { st with
               envVarNames := st.envVarNames ++ [(n, p)]
               events := st.events ++ [.set n p] } := by
  obtain ⟨hs, hnames⟩ := h
  have hnot : n ∉ setNames st.events := by
    rw [← hnames]
    exact (namesLookup_none_iff _ _).mp hn
  constructor
  · rw [eventsSound_append]
    exact ⟨hs, by simpa [eventsSound] using hnot⟩
  · simp only [List.map_append, setNames_append, hnames]
    simp [setNames]

theorem ledgerOK_append_conflict {st : LState} (h : ledgerOK st) (n : String)
    (p p0 : ConfigPropertyPath) (hn : namesLookup st.envVarNames n = some p0) :
    ledgerOK { st with events := st.events ++ [.conflict n p] } := by
  obtain ⟨hs, hnames⟩ := h
  have hin : n ∈ setNames st.events := by
    rw [← hnames]
    by_contra hcon
    rw [← namesLookup_none_iff] at hcon
    rw [hn] at hcon
    cases hcon
  constructor
  · rw [eventsSound_append]
    exact ⟨hs, by simpa [eventsSound] using hin⟩
  · simp [setNames_append, hnames, setNames]

theorem readFromEnvVar_ledger (pf : Nat) (ext : ExtEnv) (env : Env) (schema : Schema)
    (path : ConfigPropertyPath) (st : LState) (opts : EnvVarNamingOptions)
    (v : Option JSONValue) (st' : LState) (h : ledgerOK st)
    (hr : readFromEnvVar pf ext env schema path st opts = .ok (v, st')) :
    ledgerOK st' := by
  unfold readFromEnvVar at hr
  cases hl : namesLookup st.envVarNames (getEnvVarName ext path opts) with
  | some p0 =>
    rw [hl] at hr
    cases hr
    exact ledgerOK_append_conflict h _ path p0 hl
  | none =>
    rw [hl] at hr
    dsimp only at hr
    cases he : envGet env (getEnvVarName ext path opts) with
    | none => rw [he] at hr; cases hr; exact h
    | some raw =>
      rw [he] at hr
      dsimp only at hr
      cases hp : parseEnvVarValue pf raw schema with
      | error e => rw [hp, exceptBindErr] at hr; cases hr
      | ok pv =>
        rw [hp, exceptBindOk] at hr
        cases pv with
        | some value => cases hr; exact ledgerOK_append_set h _ path hl
        | none => cases hr; exact h

theorem readFromFileEnvVar_ledger (pf : Nat) (ext : ExtEnv) (env : Env) (schema : Schema)
    (path : ConfigPropertyPath) (st : LState) (opts : EnvVarNamingOptions)
    (v : Option JSONValue) (st' : LState) (h : ledgerOK st)
    (hr : readFromFileEnvVar pf ext env schema path st opts = .ok (v, st')) :
    ledgerOK st' := by
  unfold readFromFileEnvVar at hr
  cases hl : namesLookup st.envVarNames
      (getEnvVarName ext (path ++ [{ value := "FILE", named := false }]) opts) with
  | some p0 =>
    rw [hl] at hr
    cases hr
    exact ledgerOK_append_conflict h _ path p0 hl
  | none =>
    rw [hl] at hr
    dsimp only at hr
    cases he : envGet env
        (getEnvVarName ext (path ++ [{ value := "FILE", named := false }]) opts) with
    | none => rw [he] at hr; cases hr; exact h
    | some fp =>
      rw [he] at hr
      dsimp only at hr
      cases hf : readFromFileVariant ext env
          (getEnvVarName ext (path ++ [{ value := "FILE", named := false }]) opts) with
      | none => rw [hf] at hr; cases hr; exact h
      | some raw =>
        rw [hf] at hr
        dsimp only at hr
        cases hp : parseEnvVarValue pf raw schema with
        | error e => rw [hp, exceptBindErr] at hr; cases hr
        | ok pv =>
          rw [hp, exceptBindOk] at hr
          cases pv with
          | some value => cases hr; exact ledgerOK_append_set h _ path hl
          | none => cases hr; exact h

theorem readFromEnvVars_ledger (pf : Nat) (ext : ExtEnv) (env : Env) (schema : Schema)
    (path : ConfigPropertyPath) (st : LState) (opts : EnvVarNamingOptions)
    (v : Option JSONValue) (st' : LState) (h : ledgerOK st)
    (hr : readFromEnvVars pf ext env schema path st opts = .ok (v, st')) :
    ledgerOK st' := by
  unfold readFromEnvVars at hr
  cases h1 : readFromEnvVar pf ext env schema path st opts with
  | error e => rw [h1, exceptBindErr] at hr; cases hr
  | ok res =>
    rw [h1, exceptBindOk] at hr
    obtain ⟨v1, st1⟩ := res
    have hl1 := readFromEnvVar_ledger pf ext env schema path st opts v1 st1 h h1
    cases v1 with
    | some value => cases hr; exact hl1
    | none =>
      dsimp only at hr
      exact readFromFileEnvVar_ledger pf ext env schema path st1 opts v st' hl1 hr

theorem visitSchemaLoad_ledger (pf : Nat) (ext : ExtEnv) (env : Env) (schema : Schema)
    (path : ConfigPropertyPath) (st : LState) (opts : EnvVarNamingOptions) (st' : LState)
    (h : ledgerOK st) (hr : visitSchemaLoad pf ext env schema path st opts = .ok st') :
    ledgerOK st' := by
  unfold visitSchemaLoad at hr
  split_ifs at hr with hemp
  · cases hr; exact h
  · cases h1 : readFromEnvVars pf ext env schema path st opts with
    | error e => rw [h1, exceptBindErr] at hr; cases hr
    | ok res =>
      rw [h1, exceptBindOk] at hr
      obtain ⟨v1, st1⟩ := res
      have hl1 := readFromEnvVars_ledger pf ext env schema path st opts v1 st1 h h1
      cases v1 with
      | none => cases hr; exact hl1
      | some value =>
        dsimp only at hr
        cases h2 : setAtPath st1.config (path.map (fun it => it.value)) value with
        | error e => rw [h2, exceptBindErr] at hr; cases hr
        | ok kvs =>
          rw [h2, exceptBindOk] at hr
          cases hr
          exact hl1

theorem stateSchemaList_ledger
    (rec : Schema → ConfigPropertyPath → LState → Except LoadErr LState) (kw : String)
    (hrec : ∀ s p st st', ledgerOK st → rec s p st = .ok st' → ledgerOK st') :
    ∀ (l : List Schema) (path : ConfigPropertyPath) (st st' : LState),
      ledgerOK st → stateSchemaList rec kw l path st = .ok st' → ledgerOK st' := by
  intro l
  induction l with
  | nil => intro path st st' h hr; cases hr; exact h
  | cons s rest ih =>
    intro path st st' h hr
    cases s with
    | boolSchema b => cases hr
    | objSchema core =>
      simp only [stateSchemaList] at hr
      cases h1 : rec (.objSchema core) path st with
      | error e => rw [h1, exceptBindErr] at hr; cases hr
      | ok st1 =>
        rw [h1, exceptBindOk] at hr
        exact ih path st1 st' (hrec _ _ _ _ h h1) hr

theorem statePropsList_ledger
    (rec : Schema → ConfigPropertyPath → LState → Except LoadErr LState)
    (hrec : ∀ s p st st', ledgerOK st → rec s p st = .ok st' → ledgerOK st') :
    ∀ (props : List (String × Schema)) (path : ConfigPropertyPath) (st st' : LState),
      ledgerOK st → statePropsList rec props path st = .ok st' → ledgerOK st' := by
  intro props
  induction props with
  | nil => intro path st st' h hr; cases hr; exact h
  | cons p rest ih =>
    intro path st st' h hr
    obtain ⟨n, s⟩ := p
    cases s with
    | boolSchema b => cases hr
    | objSchema core =>
      simp only [statePropsList] at hr
      cases h1 : rec (.objSchema core) (path ++ [{ value := n, named := true }]) st with
      | error e => rw [h1, exceptBindErr] at hr; cases hr
      | ok st1 =>
        rw [h1, exceptBindOk] at hr
        exact ih path st1 st' (hrec _ _ _ _ h h1) hr

theorem stateDiscList_ledger
    (rec : Schema → ConfigPropertyPath → LState → Except LoadErr LState)
    (hrec : ∀ s p st st', ledgerOK st → rec s p st = .ok st' → ledgerOK st') :
    ∀ (ds : List DiscoveredProperty) (st st' : LState),
      ledgerOK st → stateDiscList rec ds st = .ok st' → ledgerOK st' := by
  intro ds
  induction ds with
  | nil => intro st st' h hr; cases hr; exact h
  | cons d rest ih =>
    intro st st' h hr
    simp only [stateDiscList] at hr
    cases h1 : rec d.schema d.path st with
    | error e => rw [h1, exceptBindErr] at hr; cases hr
    | ok st1 =>
      rw [h1, exceptBindOk] at hr
      exact ih st1 st' (hrec _ _ _ _ h h1) hr

theorem statePatsList_ledger
    (discover : String → Schema → Except LoadErr (List DiscoveredProperty))
    (rec : Schema → ConfigPropertyPath → LState → Except LoadErr LState)
    (hrec : ∀ s p st st', ledgerOK st → rec s p st = .ok st' → ledgerOK st') :
    ∀ (pats : List (String × Schema)) (st st' : LState),
      ledgerOK st → statePatsList discover rec pats st = .ok st' → ledgerOK st' := by
  intro pats
  induction pats with
  | nil => intro st st' h hr; cases hr; exact h
  | cons p rest ih =>
    intro st st' h hr
    obtain ⟨pat, s⟩ := p
    cases s with
    | boolSchema b => cases hr
    | objSchema core =>
      simp only [statePatsList] at hr
      cases h1 : discover pat (.objSchema core) with
      | error e => rw [h1, exceptBindErr] at hr; cases hr
      | ok ds =>
        rw [h1, exceptBindOk] at hr
        cases h2 : stateDiscList rec ds st with
        | error e => rw [h2, exceptBindErr] at hr; cases hr
        | ok st1 =>
          rw [h2, exceptBindOk] at hr
          exact ih st1 st' (stateDiscList_ledger rec hrec ds st st1 h h2) hr

theorem loadGo_ledger :
    ∀ (f : Nat) (ext : ExtEnv) (env : Env) (schema : Schema)
      (path : ConfigPropertyPath) (opts : EnvVarNamingOptions) (st st' : LState),
      ledgerOK st → loadGo f ext env schema path opts st = .ok st' → ledgerOK st' := by
  intro f
  induction f with
  | zero => intro ext env schema path opts st st' _ hr; cases hr
  | succ f ih =>
    intro ext env schema path opts st st' h hr
    rw [loadGo] at hr
    rcases hao : schema.anyOfOf with _ | l
    case some =>
      rw [hao] at hr
      exact stateSchemaList_ledger _ _ (fun s p a b hh hrr => ih ext env s p opts a b hh hrr)
        l path st st' h hr
    case none =>
    rw [hao] at hr
    rcases hoo : schema.oneOfOf with _ | l
    case some =>
      rw [hoo] at hr
      exact stateSchemaList_ledger _ _ (fun s p a b hh hrr => ih ext env s p opts a b hh hrr)
        l path st st' h hr
    case none =>
    rw [hoo] at hr
    rcases hal : schema.allOfOf with _ | l
    case some =>
      rw [hal] at hr
      exact stateSchemaList_ledger _ _ (fun s p a b hh hrr => ih ext env s p opts a b hh hrr)
        l path st st' h hr
    case none =>
    rw [hal] at hr
    cases h0 : visitSchemaLoad f ext env schema path st opts with
    | error e => rw [h0, exceptBindErr] at hr; cases hr
    | ok st0 =>
      rw [h0, exceptBindOk] at hr
      have hl0 := visitSchemaLoad_ledger f ext env schema path st opts st0 h h0
      cases h1 : statePropsList (fun s p st'' => loadGo f ext env s p opts st'')
          (schema.propertiesOf.getD []) path st0 with
      | error e => rw [h1, exceptBindErr] at hr; cases hr
      | ok st1 =>
        rw [h1, exceptBindOk] at hr
        have hl1 := statePropsList_ledger _
          (fun s p a b hh hrr => ih ext env s p opts a b hh hrr) _ path st0 st1 hl0 h1
        cases h2 : statePatsList
            (fun pattern s => discoverPatternProperties f ext pattern s path env opts)
            (fun s p st'' => loadGo f ext env s p opts st'')
            (schema.patternPropertiesOf.getD []) st1 with
        | error e => rw [h2, exceptBindErr] at hr; cases hr
        | ok st2 =>
          rw [h2, exceptBindOk] at hr
          have hl2 := statePatsList_ledger _ _
            (fun s p a b hh hrr => ih ext env s p opts a b hh hrr) _ st1 st2 hl1 h2
          rcases hap : schema.additionalPropertiesOf with _ | aps
          case none => rw [hap] at hr; cases hr; exact hl2
          case some =>
            rw [hap] at hr
            cases aps with
            | boolSchema b => cases hr; exact hl2
            | objSchema core =>
              dsimp only at hr
              cases h3 : discoverAdditionalProperties f ext (.objSchema core) path env opts with
              | error e => rw [h3, exceptBindErr] at hr; cases hr
              | ok ds =>
                rw [h3, exceptBindOk] at hr
                exact stateDiscList_ledger _
                  (fun s p a b hh hrr => ih ext env s p opts a b hh hrr) ds st2 st' hl2 hr

/-- C1: within one loadFromEnv call an environment-variable name sets at most
one property path: after a successful set of a path, any later path deriving
the same name only records a conflict and the variable is not consumed again
(first-claimed-wins in visit order), while a claimant whose value fails to
parse does not claim the name. -/
theorem c1_env_var_first_claimed_wins :
    (∀ (fuel : Nat) (ext : ExtEnv) (env : Env) (schema : Schema)
        (opts : EnvVarNamingOptions) (cfg : List (String × JSONValue))
        (o : EnvVarNamingOptions) (evs : List LEvent),
      loadFromEnv fuel ext env schema opts = .ok (cfg, o, evs) →
      (∀ l1 n p l2, evs = l1 ++ LEvent.set n p :: l2 → ∀ p2, LEvent.set n p2 ∉ l2) ∧
      (∀ l1 n p l2, evs = l1 ++ LEvent.conflict n p :: l2 →
        ∃ p2, LEvent.set n p2 ∈ l1)) ∧
    (∀ (pf : Nat) (ext : ExtEnv) (env : Env) (schema : Schema)
        (path : ConfigPropertyPath) (st : LState) (opts : EnvVarNamingOptions)
        (p0 : ConfigPropertyPath),
      namesLookup st.envVarNames (getEnvVarName ext path opts) = some p0 →
      readFromEnvVar pf ext env schema path st opts = .ok (none,
        { st with events := st.events ++
            [.conflict (getEnvVarName ext path opts) path] })) ∧
    (∀ (pf : Nat) (ext : ExtEnv) (env : Env) (schema : Schema)
        (path : ConfigPropertyPath) (st : LState) (opts : EnvVarNamingOptions)
        (raw : String),
      namesLookup st.envVarNames (getEnvVarName ext path opts) = none →
      envGet env (getEnvVarName ext path opts) = some raw →
      parseEnvVarValue pf raw schema = .ok none →
      readFromEnvVar pf ext env schema path st opts = .ok (none, st)) := by
  refine ⟨?_, ?_, ?_⟩
  · intro fuel ext env schema opts cfg o evs h
    unfold loadFromEnv at h
    cases h1 : loadGo fuel ext env schema [] (loadFromEnvInitOptions opts).2
        LState.initial with
    | error e => rw [h1, exceptBindErr] at h; cases h
    | ok st =>
      rw [h1, exceptBindOk] at h
      have hinit : ledgerOK LState.initial := by
        constructor
        · exact trivial
        · rfl
      have hled := loadGo_ledger fuel ext env schema [] _ LState.initial st hinit h1
      have hevs : evs = st.events := by
        cases h
        rfl
      obtain ⟨hsound, _⟩ := hled
      rw [← hevs] at hsound
      constructor
      · intro l1 n p l2 hsplit p2 hmem
        rw [hsplit] at hsound
        rw [eventsSound_append] at hsound
        obtain ⟨_, hn, hrest⟩ := hsound
        have := sound_set_not_claimed l2 _ n p2 hrest hmem
        simp at this
      · intro l1 n p l2 hsplit
        rw [hsplit] at hsound
        rw [eventsSound_append] at hsound
        obtain ⟨_, hn, _⟩ := hsound
        simp at hn
        exact setNames_mem l1 n hn
  · intro pf ext env schema path st opts p0 h
    unfold readFromEnvVar
    rw [h]
  · intro pf ext env schema path st opts raw h1 h2 h3
    unfold readFromEnvVar
    rw [h1]
    dsimp only
    rw [h2]
    dsimp only
    rw [h3, exceptBindOk]

theorem takeWhile_all_append (p : Char → Bool) :
    ∀ (l r : List Char), (∀ c ∈ l, p c = true) →
      (r = [] ∨ ∃ c r', r = c :: r' ∧ p c = false) →
      (l ++ r).takeWhile p = l ∧ (l ++ r).dropWhile p = r := by
  intro l
  induction l with
  | nil =>
    intro r _ hr
    rcases hr with rfl | ⟨c, r', rfl, hc⟩
    · exact ⟨rfl, rfl⟩
    · simp [List.takeWhile, List.dropWhile, hc]
  | cons a l' ih =>
    intro r hl hr
    have ha := hl a (by simp)
    have := ih r (fun c hc => hl c (by simp [hc])) hr
    simp [List.takeWhile, List.dropWhile, ha, this.1, this.2]

theorem ws_not_digit {c : Char} (h : isJsonWs c = true) : c.isDigit = false := by
  unfold isJsonWs at h
  simp only [Bool.or_eq_true, decide_eq_true_eq] at h
  rcases h with ((h | h) | h) | h <;> subst h <;> rfl

theorem digit_not_ws {c : Char} (h : c.isDigit = true) : isJsonWs c = false := by
  cases hw : isJsonWs c with
  | false => rfl
  | true => rw [ws_not_digit hw] at h; cases h

theorem scanIntPart_sound :
    ∀ (cs ip rest : List Char), scanIntPart cs = some (ip, rest) →
      cs = ip ++ rest ∧
        (ip = ['0'] ∨ ∃ c cs', ip = c :: cs' ∧ c.isDigit = true ∧ c ≠ '0' ∧
          ∀ d ∈ cs', d.isDigit = true) := by
  intro cs ip rest h
  cases cs with
  | nil => cases h
  | cons c r =>
    rw [scanIntPart] at h
    split_ifs at h with h0 hd
    · cases h
      exact ⟨by subst h0; simp, Or.inl rfl⟩
    · cases h
      constructor
      · have := List.takeWhile_append_dropWhile (p := Char.isDigit) (l := r)
        simp [this]
      · exact Or.inr ⟨c, r.takeWhile Char.isDigit, rfl, hd, h0, fun d hd' =>
          List.mem_takeWhile_imp hd'⟩

theorem scanIntPart_complete :
    ∀ (ip rest : List Char),
      (ip = ['0'] ∨ ∃ c cs', ip = c :: cs' ∧ c.isDigit = true ∧ c ≠ '0' ∧
        ∀ d ∈ cs', d.isDigit = true) →
      (rest = [] ∨ ∃ c r', rest = c :: r' ∧ c.isDigit = false) →
      scanIntPart (ip ++ rest) = some (ip, rest) := by
  intro ip rest hip hrest
  rcases hip with rfl | ⟨c, cs', rfl, hd, h0, hall⟩
  · show scanIntPart ('0' :: rest) = _
    rw [scanIntPart]
    simp
  · show scanIntPart (c :: (cs' ++ rest)) = _
    rw [scanIntPart]
    obtain ⟨ht, hdr⟩ := takeWhile_all_append Char.isDigit cs' rest hall hrest
    split_ifs with hc0
    · exact absurd hc0 h0
    · rw [ht, hdr]

theorem scanFracPart_sound :
    ∀ (cs fds rest : List Char), scanFracPart cs = some (fds, rest) →
      ((fds = [] ∧ cs = rest) ∨
        (fds ≠ [] ∧ cs = '.' :: fds ++ rest ∧ (∀ d ∈ fds, d.isDigit = true))) := by
  intro cs fds rest h
  cases cs with
  | nil =>
    rw [scanFracPart.eq_def] at h
    dsimp only at h
    cases h
    exact Or.inl ⟨rfl, rfl⟩
  | cons c r =>
    by_cases hc : c = '.'
    · subst hc
      rw [scanFracPart] at h
      split_ifs at h with hds
      cases h
      refine Or.inr ⟨by simpa using hds, ?_, fun d hd => List.mem_takeWhile_imp hd⟩
      have := List.takeWhile_append_dropWhile (p := Char.isDigit) (l := r)
      simp [this]
    · have hstep : scanFracPart (c :: r) = some ([], c :: r) := by
        rw [scanFracPart.eq_def]
        split
        next r2 heq => exact absurd (by injection heq with h1 _) hc
        next => rfl
      rw [hstep] at h
      cases h
      exact Or.inl ⟨rfl, rfl⟩

theorem scanFracPart_complete_none :
    ∀ (rest : List Char), (rest = [] ∨ ∃ c r', rest = c :: r' ∧ c ≠ '.') →
      scanFracPart rest = some ([], rest) := by
  intro rest h
  rcases h with rfl | ⟨c, r', rfl, hc⟩
  · rfl
  · rw [scanFracPart.eq_def]
    split
    next r2 heq => exact absurd (by injection heq with h1 _) hc
    next => rfl

theorem scanFracPart_complete_some :
    ∀ (ds rest : List Char), ds ≠ [] → (∀ d ∈ ds, d.isDigit = true) →
      (rest = [] ∨ ∃ c r', rest = c :: r' ∧ c.isDigit = false) →
      scanFracPart ('.' :: ds ++ rest) = some (ds, rest) := by
  intro ds rest hne hall hrest
  show scanFracPart ('.' :: (ds ++ rest)) = _
  rw [scanFracPart]
  obtain ⟨ht, hdr⟩ := takeWhile_all_append Char.isDigit ds rest hall hrest
  rw [ht, hdr]
  split_ifs with h
  · exact absurd h hne
  · rfl

theorem digit_ne_sign {d : Char} (h : d.isDigit = true) : d ≠ '+' ∧ d ≠ '-' := by
  constructor <;> intro heq <;> subst heq <;> cases h

theorem scanExpPart_complete_none :
    ∀ (rest : List Char), (rest = [] ∨ ∃ c r', rest = c :: r' ∧ c ≠ 'e' ∧ c ≠ 'E') →
      scanExpPart rest = some (none, rest) := by
  intro rest h
  rcases h with rfl | ⟨c, r', rfl, hc1, hc2⟩
  · rfl
  · rw [scanExpPart.eq_def]
    dsimp only
    rw [if_neg ?_]
    rintro (h | h)
    · exact hc1 h
    · exact hc2 h

theorem scanExpPart_complete_some :
    ∀ (e : Char) (sgn ds rest : List Char), (e = 'e' ∨ e = 'E') →
      (sgn = [] ∨ sgn = ['+'] ∨ sgn = ['-']) → ds ≠ [] →
      (∀ d ∈ ds, d.isDigit = true) →
      (rest = [] ∨ ∃ c r', rest = c :: r' ∧ c.isDigit = false) →
      scanExpPart (e :: (sgn ++ ds ++ rest)) =
        some (some (decide (sgn = ['-']), ds), rest) := by
  intro e sgn ds rest he hsgn hne hall hrest
  obtain ⟨ht, hdr⟩ := takeWhile_all_append Char.isDigit ds rest hall hrest
  cases ds with
  | nil => exact absurd rfl hne
  | cons d ds' =>
    have hd := hall d (by simp)
    obtain ⟨hdp, hdm⟩ := digit_ne_sign hd
    rw [List.cons_append] at ht hdr
    rw [scanExpPart.eq_def]
    dsimp only
    rw [if_pos he]
    rcases hsgn with rfl | rfl | rfl
    · simp only [List.nil_append, List.cons_append]
      split
      case h_1 a r2 heq => exact absurd (by injection heq with h1 _) hdp
      case h_2 a r2 heq => exact absurd (by injection heq with h1 _) hdm
      case h_3 a x1 x2 => simp [ht, hdr]
    · simp only [List.cons_append, List.nil_append]
      simp [ht, hdr]
    · simp only [List.cons_append, List.nil_append]
      simp [ht, hdr]

theorem scanExpPart_sound :
    ∀ (cs : List Char) (eo : Option (Bool × List Char)) (rest : List Char),
      scanExpPart cs = some (eo, rest) →
      ((eo = none ∧ rest = cs) ∨
        (∃ e sgn ds, (e = 'e' ∨ e = 'E') ∧ (sgn = [] ∨ sgn = ['+'] ∨ sgn = ['-']) ∧
          ds ≠ [] ∧ (∀ d ∈ ds, d.isDigit = true) ∧
          cs = e :: (sgn ++ ds ++ rest) ∧ eo = some (decide (sgn = ['-']), ds))) := by
  intro cs eo rest h
  cases cs with
  | nil =>
    rw [scanExpPart] at h
    cases h
    exact Or.inl ⟨rfl, rfl⟩
  | cons c r =>
    rw [scanExpPart.eq_def] at h
    dsimp only at h
    by_cases he : c = 'e' ∨ c = 'E'
    · rw [if_pos he] at h
      split at h
      next a r2 =>
        split_ifs at h with hds
        cases h
        refine Or.inr ⟨c, ['+'], r2.takeWhile Char.isDigit, he, by simp,
          by simpa using hds, fun d hd => List.mem_takeWhile_imp hd, ?_, by simp⟩
        have := List.takeWhile_append_dropWhile (p := Char.isDigit) (l := r2)
        simp [this]
      next a r2 =>
        split_ifs at h with hds
        cases h
        refine Or.inr ⟨c, ['-'], r2.takeWhile Char.isDigit, he, by simp,
          by simpa using hds, fun d hd => List.mem_takeWhile_imp hd, ?_, by simp⟩
        have := List.takeWhile_append_dropWhile (p := Char.isDigit) (l := r2)
        simp [this]
      next a x1 x2 =>
        split_ifs at h with hds
        cases h
        refine Or.inr ⟨c, [], r.takeWhile Char.isDigit, he, by simp,
          by simpa using hds, fun d hd => List.mem_takeWhile_imp hd, ?_, by simp⟩
        have := List.takeWhile_append_dropWhile (p := Char.isDigit) (l := r)
        simp [this]
    · rw [if_neg he] at h
      cases h
      exact Or.inl ⟨rfl, rfl⟩

theorem expVal_align (e : Char) (sgn ds : List Char)
    (hsgn : sgn = [] ∨ sgn = ['+'] ∨ sgn = ['-']) (hne : ds ≠ [])
    (hall : ∀ d ∈ ds, d.isDigit = true) :
    expIntOf (e :: (sgn ++ ds)) = expValOf (some (decide (sgn = ['-']), ds)) := by
  cases ds with
  | nil => exact absurd rfl hne
  | cons d ds' =>
    obtain ⟨hdp, hdm⟩ := digit_ne_sign (hall d (by simp))
    rw [expIntOf.eq_def]
    dsimp only
    rcases hsgn with rfl | rfl | rfl
    · simp only [List.nil_append]
      split
      case h_1 a r2 heq => exact absurd (by injection heq with h1 _) hdp
      case h_2 a r2 heq => exact absurd (by injection heq with h1 _) hdm
      case h_3 a x1 x2 =>
        rw [expValOf]
        simp
    · simp only [List.cons_append, List.nil_append]
      simp [expValOf]
    · simp only [List.cons_append, List.nil_append]
      simp [expValOf]

theorem scanNumAfterSign_sound :
    ∀ (neg : Bool) (cs1 : List Char) (q : ℚ) (rest : List Char),
      scanNumAfterSign neg cs1 = some (q, rest) →
      ∃ tok1, cs1 = tok1 ++ rest ∧
        ∃ (ip fp ep : List Char),
          tok1 = ip ++ fp ++ ep ∧
          (ip = ['0'] ∨ ∃ c cs', ip = c :: cs' ∧ c.isDigit ∧ c ≠ '0' ∧
            ∀ d ∈ cs', d.isDigit) ∧
          (fp = [] ∨ ∃ ds, fp = '.' :: ds ∧ ds ≠ [] ∧ ∀ d ∈ ds, d.isDigit) ∧
          (ep = [] ∨ ∃ e sgn ds, (e = 'e' ∨ e = 'E') ∧
            (sgn = [] ∨ sgn = ['+'] ∨ sgn = ['-']) ∧ ds ≠ [] ∧
            (∀ d ∈ ds, d.isDigit) ∧ ep = e :: (sgn ++ ds)) ∧
          q = grammarValue neg ip fp ep := by
  intro neg cs1 q rest h
  unfold scanNumAfterSign at h
  cases hip : scanIntPart cs1 with
  | none => rw [hip] at h; cases h
  | some res =>
    obtain ⟨ip, cs2⟩ := res
    rw [hip] at h
    dsimp only at h
    obtain ⟨heq1, hipok⟩ := scanIntPart_sound cs1 ip cs2 hip
    cases hfp : scanFracPart cs2 with
    | none => rw [hfp] at h; cases h
    | some res2 =>
      obtain ⟨fds, cs3⟩ := res2
      rw [hfp] at h
      dsimp only at h
      cases hep : scanExpPart cs3 with
      | none => rw [hep] at h; cases h
      | some res3 =>
        obtain ⟨eo, rest2⟩ := res3
        rw [hep] at h
        dsimp only at h
        injection h with h
        injection h with hq hrest
        subst hrest
        rcases scanFracPart_sound cs2 fds cs3 hfp with ⟨hfnil, heq2⟩ | ⟨hfne, heq2, hfdig⟩
        · subst hfnil
          rcases scanExpPart_sound cs3 eo rest2 hep with ⟨heo, heq3⟩ |
            ⟨e, sgn, ds, he, hsgn, hdne, hddig, heq3, heo⟩
          · subst heo
            refine ⟨ip, by rw [heq1, heq2, heq3], ip, [], [], by simp, hipok,
              Or.inl rfl, Or.inl rfl, ?_⟩
            rw [← hq]
            rfl
          · subst heo
            refine ⟨ip ++ (e :: (sgn ++ ds)), ?_, ip, [], e :: (sgn ++ ds), by simp,
              hipok, Or.inl rfl, Or.inr ⟨e, sgn, ds, he, hsgn, hdne, hddig, rfl⟩, ?_⟩
            · rw [heq1, heq2, heq3]
              simp
            · rw [← hq]
              unfold numValueOf grammarValue
              rw [expVal_align e sgn ds hsgn hdne hddig]
              rfl
        · rcases scanExpPart_sound cs3 eo rest2 hep with ⟨heo, heq3⟩ |
            ⟨e, sgn, ds, he, hsgn, hdne, hddig, heq3, heo⟩
          · subst heo
            refine ⟨ip ++ ('.' :: fds), ?_, ip, '.' :: fds, [], by simp,
              hipok, Or.inr ⟨fds, rfl, hfne, hfdig⟩, Or.inl rfl, ?_⟩
            · rw [heq1, heq2, heq3]
              simp
            · rw [← hq]
              rfl
          · subst heo
            refine ⟨ip ++ ('.' :: fds) ++ (e :: (sgn ++ ds)), ?_, ip, '.' :: fds,
              e :: (sgn ++ ds), by simp, hipok,
              Or.inr ⟨fds, rfl, hfne, hfdig⟩,
              Or.inr ⟨e, sgn, ds, he, hsgn, hdne, hddig, rfl⟩, ?_⟩
            · rw [heq1, heq2, heq3]
              simp
            · rw [← hq]
              unfold numValueOf grammarValue
              rw [expVal_align e sgn ds hsgn hdne hddig]
              rfl

theorem scanNumber_sound :
    ∀ (cs : List Char) (q : ℚ) (rest : List Char),
      scanNumber cs = some (q, rest) → ∃ tok, cs = tok ++ rest ∧ NumToken tok q := by
  intro cs q rest h
  rw [scanNumber.eq_def] at h
  split at h
  next r =>
    obtain ⟨tok1, htok, ip, fp, ep, hdec, hip, hfp, hep, hval⟩ :=
      scanNumAfterSign_sound true r q rest h
    exact ⟨'-' :: tok1, by simp [htok], true, ip, fp, ep, by simp [hdec], hip, hfp,
      hep, hval⟩
  next =>
    obtain ⟨tok1, htok, ip, fp, ep, hdec, hip, hfp, hep, hval⟩ :=
      scanNumAfterSign_sound false cs q rest h
    exact ⟨tok1, htok, false, ip, fp, ep, by simp [hdec], hip, hfp, hep, hval⟩

theorem ws_char_cases {c : Char} (h : isJsonWs c = true) :
    c = ' ' ∨ c = '\t' ∨ c = '\n' ∨ c = '\r' := by
  unfold isJsonWs at h
  simp only [Bool.or_eq_true, decide_eq_true_eq] at h
  tauto

theorem ws_not_dot {c : Char} (h : isJsonWs c = true) : c ≠ '.' := by
  rcases ws_char_cases h with rfl | rfl | rfl | rfl <;> decide

theorem ws_not_exp {c : Char} (h : isJsonWs c = true) : c ≠ 'e' ∧ c ≠ 'E' := by
  rcases ws_char_cases h with rfl | rfl | rfl | rfl <;> exact ⟨by decide, by decide⟩

theorem digit_ne_lit {c l : Char} (hd : c.isDigit = true) (hl : l.isDigit = false) :
    c ≠ l := by
  intro h
  subst h
  rw [hd] at hl
  cases hl

theorem scanNumAfterSign_complete :
    ∀ (neg : Bool) (ip fp ep rest : List Char),
      (ip = ['0'] ∨ ∃ c cs', ip = c :: cs' ∧ c.isDigit = true ∧ c ≠ '0' ∧
        ∀ d ∈ cs', d.isDigit = true) →
      (fp = [] ∨ ∃ ds, fp = '.' :: ds ∧ ds ≠ [] ∧ ∀ d ∈ ds, d.isDigit = true) →
      (ep = [] ∨ ∃ e sgn ds, (e = 'e' ∨ e = 'E') ∧
        (sgn = [] ∨ sgn = ['+'] ∨ sgn = ['-']) ∧ ds ≠ [] ∧
        (∀ d ∈ ds, d.isDigit = true) ∧ ep = e :: (sgn ++ ds)) →
      (rest = [] ∨ ∃ c r', rest = c :: r' ∧ isJsonWs c = true) →
      scanNumAfterSign neg (ip ++ (fp ++ (ep ++ rest))) =
        some (grammarValue neg ip fp ep, rest) := by
  intro neg ip fp ep rest hip hfp hep hrest
  have hrest_nd : rest = [] ∨ ∃ c r', rest = c :: r' ∧ c.isDigit = false := by
    rcases hrest with rfl | ⟨c, r', rfl, hc⟩
    · exact Or.inl rfl
    · exact Or.inr ⟨c, r', rfl, ws_not_digit hc⟩
  have hrest_ndot : rest = [] ∨ ∃ c r', rest = c :: r' ∧ c ≠ '.' := by
    rcases hrest with rfl | ⟨c, r', rfl, hc⟩
    · exact Or.inl rfl
    · exact Or.inr ⟨c, r', rfl, ws_not_dot hc⟩
  have hrest_nexp : rest = [] ∨ ∃ c r', rest = c :: r' ∧ c ≠ 'e' ∧ c ≠ 'E' := by
    rcases hrest with rfl | ⟨c, r', rfl, hc⟩
    · exact Or.inl rfl
    · exact Or.inr ⟨c, r', rfl, ws_not_exp hc⟩
  have heprest_nd : ep ++ rest = [] ∨
      ∃ c r', ep ++ rest = c :: r' ∧ c.isDigit = false := by
    rcases hep with rfl | ⟨e, sgn, ds, he, _, _, _, rfl⟩
    · simpa using hrest_nd
    · refine Or.inr ⟨e, sgn ++ ds ++ rest, by simp, ?_⟩
      rcases he with rfl | rfl <;> decide
  have hfull_nd : fp ++ (ep ++ rest) = [] ∨
      ∃ c r', fp ++ (ep ++ rest) = c :: r' ∧ c.isDigit = false := by
    rcases hfp with rfl | ⟨ds, rfl, _, _⟩
    · simpa using heprest_nd
    · exact Or.inr ⟨'.', ds ++ (ep ++ rest), by simp, by decide⟩
  have hint := scanIntPart_complete ip (fp ++ (ep ++ rest)) hip hfull_nd
  unfold scanNumAfterSign
  rw [hint]
  dsimp only
  rcases hfp with rfl | ⟨ds, rfl, hdsne, hdsdig⟩
  · have hfrac : scanFracPart ([] ++ (ep ++ rest)) = some ([], ep ++ rest) := by
      simp only [List.nil_append]
      apply scanFracPart_complete_none
      rcases hep with rfl | ⟨e, sgn, ds, he, _, _, _, rfl⟩
      · simpa using hrest_ndot
      · refine Or.inr ⟨e, sgn ++ ds ++ rest, by simp, ?_⟩
        rcases he with rfl | rfl <;> decide
    rw [hfrac]
    dsimp only
    rcases hep with rfl | ⟨e, sgn, ds, he, hsgn, hdne, hddig, rfl⟩
    · have hexp : scanExpPart ([] ++ rest) = some (none, rest) := by
        simp only [List.nil_append]
        exact scanExpPart_complete_none rest hrest_nexp
      rw [hexp]
      rfl
    · have hexp : scanExpPart ((e :: (sgn ++ ds)) ++ rest) =
          some (some (decide (sgn = ['-']), ds), rest) := by
        have := scanExpPart_complete_some e sgn ds rest he hsgn hdne hddig hrest_nd
        simpa [List.append_assoc] using this
      rw [hexp]
      dsimp only
      unfold numValueOf grammarValue
      rw [expVal_align e sgn ds hsgn hdne hddig]
      rfl
  · have hfrac : scanFracPart (('.' :: ds) ++ (ep ++ rest)) = some (ds, ep ++ rest) := by
      have := scanFracPart_complete_some ds (ep ++ rest) hdsne hdsdig heprest_nd
      simpa [List.append_assoc] using this
    rw [hfrac]
    dsimp only
    rcases hep with rfl | ⟨e, sgn, ds2, he, hsgn, hdne, hddig, rfl⟩
    · have hexp : scanExpPart ([] ++ rest) = some (none, rest) := by
        simp only [List.nil_append]
        exact scanExpPart_complete_none rest hrest_nexp
      rw [hexp]
      rfl
    · have hexp : scanExpPart ((e :: (sgn ++ ds2)) ++ rest) =
          some (some (decide (sgn = ['-']), ds2), rest) := by
        have := scanExpPart_complete_some e sgn ds2 rest he hsgn hdne hddig hrest_nd
        simpa [List.append_assoc] using this
      rw [hexp]
      dsimp only
      unfold numValueOf grammarValue
      rw [expVal_align e sgn ds2 hsgn hdne hddig]
      rfl

theorem scanNumber_complete :
    ∀ (tok rest : List Char) (q : ℚ), NumToken tok q →
      (rest = [] ∨ ∃ c r', rest = c :: r' ∧ isJsonWs c = true) →
      scanNumber (tok ++ rest) = some (q, rest) := by
  intro tok rest q hnt hrest
  obtain ⟨neg, ip, fp, ep, hdec, hip, hfp, hep, hval⟩ := hnt
  subst hdec
  subst hval
  cases neg with
  | true =>
    have hform : (((if true then ['-'] else []) ++ ip ++ fp ++ ep) ++ rest) =
        '-' :: (ip ++ (fp ++ (ep ++ rest))) := by simp
    rw [hform]
    rw [show scanNumber ('-' :: (ip ++ (fp ++ (ep ++ rest)))) =
      scanNumAfterSign true (ip ++ (fp ++ (ep ++ rest))) from rfl]
    exact scanNumAfterSign_complete true ip fp ep rest hip hfp hep hrest
  | false =>
    obtain ⟨d, ip', hipe, hd⟩ : ∃ d ip', ip = d :: ip' ∧ d.isDigit = true := by
      rcases hip with rfl | ⟨c, cs', rfl, hcd, _, _⟩
      · exact ⟨'0', [], rfl, by decide⟩
      · exact ⟨c, cs', rfl, hcd⟩
    subst hipe
    have hform : (((if false then ['-'] else []) ++ (d :: ip') ++ fp ++ ep) ++ rest) =
        d :: (ip' ++ (fp ++ (ep ++ rest))) := by simp
    rw [hform]
    have hmain := scanNumAfterSign_complete false (d :: ip') fp ep rest hip hfp hep hrest
    rw [show (d :: ip') ++ (fp ++ (ep ++ rest)) = d :: (ip' ++ (fp ++ (ep ++ rest)))
      from by simp] at hmain
    rw [scanNumber.eq_def]
    split
    next r2 heq =>
      exact absurd (by injection heq with h1 _) ((digit_ne_sign hd).2)
    next =>
      exact hmain

theorem skipWs_all_append (ws l : List Char) (hws : AllWs ws)
    (hl : l = [] ∨ ∃ c r', l = c :: r' ∧ isJsonWs c = false) :
    skipWs (ws ++ l) = l := by
  unfold skipWs
  exact (takeWhile_all_append isJsonWs ws l hws hl).2

theorem allWs_skipWs_nil (l : List Char) (h : AllWs l) : skipWs l = [] := by
  have := skipWs_all_append l [] h (Or.inl rfl)
  simpa using this

theorem allWs_of_skipWs_nil (l : List Char) (h : skipWs l = []) : AllWs l := by
  intro c hc
  have hl := List.takeWhile_append_dropWhile (p := isJsonWs) (l := l)
  unfold skipWs at h
  rw [h, List.append_nil] at hl
  rw [← hl] at hc
  exact List.mem_takeWhile_imp hc

theorem skipWs_decomp (l : List Char) :
    l = l.takeWhile isJsonWs ++ skipWs l ∧ AllWs (l.takeWhile isJsonWs) := by
  constructor
  · exact (List.takeWhile_append_dropWhile (p := isJsonWs) (l := l)).symm
  · intro c hc
    exact List.mem_takeWhile_imp hc

theorem jrun_arrElems_shape :
    ∀ (f : Nat) (cs : List Char) (acc : List JSONValue) (v : JSONValue)
      (rest : List Char),
      jrun f (.arrElems cs acc) = some (v, rest) → ∃ xs, v = .arr xs := by
  intro f
  induction f with
  | zero => intro cs acc v rest h; cases h
  | succ f ih =>
    intro cs acc v rest h
    rw [jrun] at h
    split_ifs at h with hcond
    · cases h
      exact ⟨[], rfl⟩
    · cases h1 : jrun f (.value cs) with
      | none => rw [h1] at h; cases h
      | some res =>
        obtain ⟨v1, rest1⟩ := res
        rw [h1] at h
        dsimp only at h
        split at h
        next => exact ih _ _ _ _ h
        next => cases h; exact ⟨acc ++ [v1], rfl⟩
        next => cases h

theorem jrun_objMembers_shape :
    ∀ (f : Nat) (cs : List Char) (acc : List (String × JSONValue)) (v : JSONValue)
      (rest : List Char),
      jrun f (.objMembers cs acc) = some (v, rest) → ∃ kvs, v = .obj kvs := by
  intro f
  induction f with
  | zero => intro cs acc v rest h; cases h
  | succ f ih =>
    intro cs acc v rest h
    rw [jrun.eq_def] at h
    dsimp only at h
    split_ifs at h with hcond
    · cases h
      exact ⟨[], rfl⟩
    · split at h
      next a r =>
        cases h2 : scanStrF f r with
        | none => rw [h2] at h; cases h
        | some res2 =>
          obtain ⟨key, r1⟩ := res2
          rw [h2] at h
          dsimp only at h
          split at h
          next r2 hcol =>
            cases h3 : jrun f (.value (skipWs r2)) with
            | none => rw [h3] at h; cases h
            | some res3 =>
              obtain ⟨v1, rest1⟩ := res3
              rw [h3] at h
              dsimp only at h
              split at h
              next => exact ih _ _ _ _ h
              next c4 r4 hc4 =>
                split_ifs at h
                cases h
                exact ⟨objSet acc (String.mk key) v1, rfl⟩
              next => cases h
          next => cases h
      next => cases h

theorem parseNumber_spec (s : String) (q : ℚ) :
    parseNumber s = some q ↔
      ∃ ws1 tok ws2, s.data = ws1 ++ tok ++ ws2 ∧ AllWs ws1 ∧ AllWs ws2 ∧
        NumToken tok q := by
  constructor
  · intro h
    unfold parseNumber at h
    cases hj : jsonParse s with
    | none => rw [hj] at h; cases h
    | some v =>
      rw [hj] at h
      cases v with
      | num q0 =>
        dsimp only at h
        injection h with h0
        subst h0
        unfold jsonParse at hj
        cases hr : jrun (2 * s.data.length + 4) (.value (skipWs s.data)) with
        | none => rw [hr] at hj; cases hj
        | some res =>
          obtain ⟨v1, rest⟩ := res
          rw [hr] at hj
          dsimp only at hj
          split_ifs at hj with hskip
          · injection hj with hv1
            subst hv1
            rw [show 2 * s.data.length + 4 = (2 * s.data.length + 3) + 1 from rfl]
              at hr
            cases hcs : skipWs s.data with
            | nil => rw [hcs] at hr; rw [jrun.eq_def] at hr; dsimp only at hr; cases hr
            | cons c r =>
              rw [hcs] at hr
              rw [jrun.eq_def] at hr
              dsimp only at hr
              split_ifs at hr with h1 h2 h3 h4 h5 h6
              · obtain ⟨kvs, hk⟩ := jrun_objMembers_shape _ _ _ _ _ hr
                cases hk
              · obtain ⟨xs, hk⟩ := jrun_arrElems_shape _ _ _ _ _ hr
                cases hk
              · cases h2s : scanStrF (2 * s.data.length + 3) r with
                | none => rw [h2s] at hr; cases hr
                | some res2 =>
                  obtain ⟨s1, r1⟩ := res2
                  rw [h2s] at hr
                  dsimp only at hr
                  cases hr
              · cases hr
              · cases hr
              · cases hr
              · cases hsn : scanNumber (c :: r) with
                | none => rw [hsn] at hr; cases hr
                | some res2 =>
                  obtain ⟨q1, rest1⟩ := res2
                  rw [hsn] at hr
                  dsimp only at hr
                  injection hr with hr1
                  injection hr1 with hrq hrr
                  injection hrq with hrq
                  subst hrq
                  subst hrr
                  obtain ⟨tok, htok, hnum⟩ := scanNumber_sound _ _ _ hsn
                  obtain ⟨hdec1, hdec2⟩ := skipWs_decomp s.data
                  refine ⟨s.data.takeWhile isJsonWs, tok, rest1, ?_, hdec2,
                    allWs_of_skipWs_nil rest1 hskip, hnum⟩
                  rw [List.append_assoc, ← htok, ← hcs]
                  exact hdec1
      | null => dsimp only at h; cases h
      | bool b => dsimp only at h; cases h
      | str s1 => dsimp only at h; cases h
      | arr xs => dsimp only at h; cases h
      | obj kvs => dsimp only at h; cases h
  · rintro ⟨ws1, tok, ws2, hs, hws1, hws2, hnt⟩
    have hhead : ∃ c0 R, tok = c0 :: R ∧ isJsonWs c0 = false ∧ ¬c0 = curlyOpen ∧
        ¬c0 = '[' ∧ ¬c0 = '"' ∧ ¬c0 = 't' ∧ ¬c0 = 'f' ∧ ¬c0 = 'n' := by
      obtain ⟨neg, ip, fp, ep, hdec, hip, hfp, hep, hval⟩ := hnt
      obtain ⟨d, ip', hipe, hd⟩ : ∃ d ip', ip = d :: ip' ∧ d.isDigit = true := by
        rcases hip with rfl | ⟨c, cs', rfl, hcd, _, _⟩
        · exact ⟨'0', [], rfl, by decide⟩
        · exact ⟨c, cs', rfl, hcd⟩
      subst hdec
      subst hipe
      cases neg with
      | true =>
        exact ⟨'-', d :: ip' ++ fp ++ ep, by simp [List.append_assoc], by decide,
          by decide, by decide, by decide, by decide, by decide, by decide⟩
      | false =>
        refine ⟨d, ip' ++ fp ++ ep, by simp [List.append_assoc], digit_not_ws hd,
          digit_ne_lit hd (by decide), digit_ne_lit hd (by decide),
          digit_ne_lit hd (by decide), digit_ne_lit hd (by decide),
          digit_ne_lit hd (by decide), digit_ne_lit hd (by decide)⟩
    obtain ⟨c0, R, htok0, hc0ws, hc1, hc2, hc3, hc4, hc5, hc6⟩ := hhead
    have hskip : skipWs s.data = tok ++ ws2 := by
      rw [hs, List.append_assoc]
      apply skipWs_all_append _ _ hws1
      right
      exact ⟨c0, R ++ ws2, by rw [htok0]; simp, hc0ws⟩
    have hws2head : ws2 = [] ∨ ∃ c r', ws2 = c :: r' ∧ isJsonWs c = true := by
      cases ws2 with
      | nil => exact Or.inl rfl
      | cons c r' => exact Or.inr ⟨c, r', rfl, hws2 c (by simp)⟩
    have hsn : scanNumber (tok ++ ws2) = some (q, ws2) :=
      scanNumber_complete tok ws2 q hnt hws2head
    have hsn' : scanNumber (c0 :: (R ++ ws2)) = some (q, ws2) := by
      rw [← List.cons_append, ← htok0]
      exact hsn
    unfold parseNumber jsonParse
    rw [hskip, htok0, List.cons_append]
    rw [show 2 * s.data.length + 4 = (2 * s.data.length + 3) + 1 from rfl]
    rw [jrun.eq_def]
    dsimp only
    rw [if_neg hc1, if_neg hc2, if_neg hc3, if_neg hc4, if_neg hc5, if_neg hc6]
    rw [hsn']
    dsimp only
    rw [allWs_skipWs_nil ws2 hws2]
    rfl

theorem parseInteger_spec (s : String) (q : ℚ) :
    parseInteger s = some q ↔ parseNumber s = some q ∧ q.den = 1 := by
  unfold parseInteger
  cases hp : parseNumber s with
  | none => simp
  | some q0 =>
    dsimp only
    split_ifs with hden
    · constructor
      · intro h
        injection h with h
        subst h
        exact ⟨rfl, hden⟩
      · rintro ⟨h1, _⟩
        injection h1 with h1
        subst h1
        rfl
    · constructor
      · intro h
        cases h
      · rintro ⟨h1, hd⟩
        injection h1 with h1
        subst h1
        exact absurd hd hden

/-- C7: parseNumber succeeds exactly on strings that are a strict JSON
decimal token surrounded by whitespace, returning its exact value; the
malformed forms 012, .12, 0x11, the empty string and Infinity all parse as
undefined; parseInteger further requires an integral value; and
parseEnvVarValue routes the number and integer types to these parsers. -/
theorem c7_number_strict_grammar :
    (∀ (s : String) (q : ℚ),
      parseNumber s = some q ↔
        ∃ ws1 tok ws2, s.data = ws1 ++ tok ++ ws2 ∧ AllWs ws1 ∧ AllWs ws2 ∧
          NumToken tok q) ∧
    (parseNumber "012" = none ∧ parseNumber ".12" = none ∧
      parseNumber "0x11" = none ∧ parseNumber "" = none ∧
      parseNumber "Infinity" = none) ∧
    (∀ (s : String) (q : ℚ),
      parseInteger s = some q ↔ parseNumber s = some q ∧ q.den = 1) ∧
    (∀ (f : Nat) (v : String),
      parseEnvVarValue (f + 1) v (typedSchema "number") =
        .ok ((parseNumber v).map JSONValue.num)) ∧
    (∀ (f : Nat) (v : String),
      parseEnvVarValue (f + 1) v (typedSchema "integer") =
        .ok ((parseInteger v).map JSONValue.num)) := by
  refine ⟨parseNumber_spec, ⟨rfl, rfl, rfl, rfl, rfl⟩, parseInteger_spec, ?_, ?_⟩
  · intro f v
    rfl
  · intro f v
    rfl

theorem c1_env_var_first_claimed_wins_witness :
    namesLookup (LState.initial).envVarNames
      (getEnvVarName (witnessExt fun _ => none)
        [{ value := "flag", named := true }] DEFAULT_OPTIONS) = none ∧
    envGet [("flag", "x")] (getEnvVarName (witnessExt fun _ => none)
      [{ value := "flag", named := true }] DEFAULT_OPTIONS) = some "x" ∧
    parseEnvVarValue 1 "x" (typedSchema "boolean") = .ok none ∧
    readFromEnvVar 1 (witnessExt fun _ => none) [("flag", "x")] (typedSchema "boolean")
      [{ value := "flag", named := true }] LState.initial DEFAULT_OPTIONS =
      .ok (none, LState.initial) :=
  ⟨rfl, rfl, rfl,
    c1_env_var_first_claimed_wins.2.2 1 (witnessExt fun _ => none) [("flag", "x")]
      (typedSchema "boolean") [{ value := "flag", named := true }] LState.initial
      DEFAULT_OPTIONS "x" rfl rfl rfl⟩

theorem c2_applicator_order_short_circuit_witness :
    (∀ s ∈ ([] : List Schema), ∃ evs', walkTrace 1 s [] = .ok evs') ∧
    ∃ msg, walkTrace 2 (.objSchema (.mk none none none none none none
      (some ([] ++ .boolSchema true :: [])) none none)) [] =
      .error (.unsupportedSchema msg) :=
  ⟨by simp, c2_applicator_order_short_circuit.2.2.2.2.2 1 none none none none none
    none [] true [] none none [] (by simp)⟩

theorem c3_file_variant_fallback_witness :
    envGet [("A_FILE", "f.txt")] "A_FILE" = some "f.txt" ∧
    readFromFileVariant (witnessExt fun _ => none) [("A_FILE", "f.txt")] "A_FILE" =
      none :=
  ⟨rfl, (c3_file_variant_fallback.2.2.2.1 (witnessExt fun _ => none)
    [("A_FILE", "f.txt")] "A_FILE" "f.txt" rfl).2.1 rfl⟩

theorem c5_discovery_name_extraction_witness :
    propertySuffixMatches DEFAULT_OPTIONS "metadata__length" "__length" = true ∧
    ∃ i, FirstOccursAt ("metadata__length" : String).data
        ("__length" : String).data i ∧ i ≠ 0 ∧
      (i + strLen "__length" = strLen "metadata__length" ∨
        jsStartsWith (strDrop "metadata__length" (i + strLen "__length"))
          (sepFallback DEFAULT_OPTIONS) = true) :=
  ⟨rfl, (c5_discovery_name_extraction.2.2 DEFAULT_OPTIONS "metadata__length"
    "__length").mp rfl⟩

theorem c6_array_json_then_csv_witness :
    (typedSchema "array").typeOf = some (.single "array") ∧
    jsonParse "[1,2]" = some (.arr [.num 1, .num 2]) ∧
    parseEnvVarValue 1 "[1,2]" (typedSchema "array") =
      .ok (some (.arr [.num 1, .num 2])) :=
  ⟨rfl, rfl, c6_array_json_then_csv.1 0 "[1,2]" (typedSchema "array")
    [.num 1, .num 2] rfl rfl⟩

theorem c7_number_strict_grammar_witness :
    (∃ ws1 tok ws2, (" 42 " : String).data = ws1 ++ tok ++ ws2 ∧ AllWs ws1 ∧
      AllWs ws2 ∧ NumToken tok 42) ∧
    parseNumber " 42 " = some 42 := by
  have hws : ∀ c ∈ ([' '] : List Char), isJsonWs c = true := by
    intro c hc
    have := List.mem_singleton.mp hc
    subst this
    rfl
  have pkg : ∃ ws1 tok ws2, (" 42 " : String).data = ws1 ++ tok ++ ws2 ∧ AllWs ws1 ∧
      AllWs ws2 ∧ NumToken tok 42 :=
    ⟨[' '], ['4', '2'], [' '], rfl, hws, hws, false, ['4', '2'], [], [], rfl,
      Or.inr ⟨'4', ['2'], rfl, by decide, by decide, by decide⟩,
      Or.inl rfl, Or.inl rfl, by rfl⟩
  exact ⟨pkg, (c7_number_strict_grammar.1 " 42 " 42).mpr pkg⟩

theorem c8_boolean_exact_strings_witness :
    (("yes" : String) ≠ "true" ∧ ("yes" : String) ≠ "false") ∧
    parseBoolean "yes" = none :=
  ⟨by decide, (c8_boolean_exact_strings.2.2.2 "yes").mpr (by decide)⟩

theorem c9_boolean_schema_errors_witness :
    (∀ xs, jsonParse "x" ≠ some (.arr xs)) ∧
    parseEnvVarValue 1 "x" (.objSchema (.mk (some (.single "array")) none none none
      (some (.one (.boolSchema true))) none none none none)) =
      .error (.unsupportedSchema "Boolean items keyword values are not supported") := by
  have hne : ∀ xs, jsonParse "x" ≠ some (JSONValue.arr xs) := by
    intro xs h
    rw [show jsonParse "x" = none from rfl] at h
    cases h
  exact ⟨hne, c9_boolean_schema_errors.2.2.2.2.2.1 0 "x" none none none none true hne⟩

theorem c10_options_mutation_witness :
    emptyOptions.caseKind = none ∧
    ((loadFromEnvInitOptions emptyOptions).1).caseKind = some .screamingSnake ∧
    (loadFromEnvInitOptions emptyOptions).1 ≠ emptyOptions :=
  ⟨rfl, c10_options_mutation.2.2.2.1 emptyOptions rfl⟩
